import Mathlib

/-!
Verification of the `lever` task-driver against its specification.

This file shallowly embeds the relevant parts of the Rust sources
(`src/rate_limit.rs`, `src/task_agent.rs`, `src/task_metadata.rs`) in Lean:

* JSON values (`serde_json::Value`) become the inductive type `Json`;
  `serde_json`'s number type is modelled by `ℚ` (an `f64` is modelled as the
  rational it denotes, and an integer-valued number is one with denominator 1;
  exotic float corner cases — NaN, infinities, parse of exponent forms,
  precision loss — are outside the model and noted where relevant).
* `f64` arithmetic in the rate limiter is modelled over `ℚ`.
* Machine integers (`u64`, `i64`) are modelled as `ℕ`/`ℤ` with the explicit
  range / wrap behaviour of the casts where they occur.
* Filesystem / subprocess effects are factored out: file contents become
  function arguments and results, subprocess outcomes become oracle inputs.
-/

set_option maxRecDepth 10000

attribute [local semireducible] Rat.add Rat.sub Rat.mul Rat.inv Rat.ofScientific

/-- Model of `serde_json::Value`.  Objects are ordered association lists
(serde's map cannot hold duplicate keys; lookup below returns the first
binding, which agrees with serde on all values serde can produce). -/
inductive Json where
  | null : Json
  | bool : Bool → Json
  | num : ℚ → Json
  | str : String → Json
  | arr : List Json → Json
  | obj : List (String × Json) → Json

/-- First binding for a key in an object field list (`Map::get`). -/
def lookupField : List (String × Json) → String → Option Json
  | [], _ => none
  | (k', v) :: rest, k => if k' = k then some v else lookupField rest k

/-- `Map::insert`: replace the value of an existing key in place, otherwise
append the binding. -/
def setField : List (String × Json) → String → Json → List (String × Json)
  | [], k, v => [(k, v)]
  | (k', v') :: rest, k, v =>
    if k' = k then (k, v) :: rest else (k', v') :: setField rest k v

/-- `Value::get` with a string key (objects only). -/
def Json.getKey : Json → String → Option Json
  | .obj fields, k => lookupField fields k
  | _, _ => none

/-- `Value::as_str`. -/
def Json.asStr : Json → Option String
  | .str s => some s
  | _ => none

/-- `Value::as_bool`. -/
def Json.asBool : Json → Option Bool
  | .bool b => some b
  | _ => none

/-- `Value::as_array`. -/
def Json.asArr : Json → Option (List Json)
  | .arr l => some l
  | _ => none

/-- `Number::as_i64`: an integer-valued number within `i64` range. -/
def Json.asI64 : Json → Option ℤ
  | .num q => if q.den = 1 ∧ -(2 ^ 63) ≤ q.num ∧ q.num < 2 ^ 63 then some q.num else none
  | _ => none

/-- `Number::as_u64`: an integer-valued number within `u64` range. -/
def Json.asU64 : Json → Option ℕ
  | .num q => if q.den = 1 ∧ 0 ≤ q.num ∧ q.num < 2 ^ 64 then some q.num.toNat else none
  | _ => none

/-- The value of a `u64` reinterpreted `as i64` (two's-complement wrap). -/
def u64AsI64 (n : ℕ) : ℤ := if n < 2 ^ 63 then (n : ℤ) else (n : ℤ) - 2 ^ 64

/-- Digits-only string to `ℕ` (`None` when empty or a non-digit occurs). -/
def digitsToNat : List Char → Option ℕ
  | [] => none
  | l =>
    if l.all Char.isDigit then
      some (l.foldl (fun a c => a * 10 + (c.toNat - 48)) 0)
    else none

/-- Leading sign of a numeric literal: `(is-negative, rest)`. -/
def parseSign : List Char → Bool × List Char
  | '-' :: t => (true, t)
  | '+' :: t => (false, t)
  | t => (false, t)

/-- The signed value of a digit string. -/
def signValue (neg : Bool) (n : ℕ) : ℤ := if neg then -(n : ℤ) else (n : ℤ)

/-- The signed value of a digit string, admitted only within `i64` range. -/
def signedOfDigits (neg : Bool) (n : ℕ) : Option ℤ :=
  if -(2 ^ 63) ≤ signValue neg n ∧ signValue neg n < 2 ^ 63
  then some (signValue neg n) else none

/-- `str::parse::<i64>`: optional sign, digits, `i64` range check. -/
def parseI64 (s : String) : Option ℤ :=
  match digitsToNat (parseSign s.data).2 with
  | none => none
  | some n => signedOfDigits (parseSign s.data).1 n

/-- `str::parse::<f64>`, restricted to plain decimal forms
`[+-]? digits [. digits]` / `[+-]? . digits` (the exponent, `inf` and `nan`
forms of Rust's float grammar are not modelled; no claim depends on them). -/
def parseF64 (s : String) : Option ℚ :=
  let next : Option ℚ :=
    match (parseSign s.data).2.splitOn '.' with
    | [ip] =>
      match digitsToNat ip with
      | some n => some (n : ℚ)
      | none => none
    | [ip, fp] =>
      if (ip ++ fp) ≠ [] ∧ (ip ++ fp).all Char.isDigit then
        some (((digitsToNat ip).getD 0 : ℚ)
          + ((digitsToNat fp).getD 0 : ℚ) / 10 ^ fp.length)
      else none
    | _ => none
  match next with
  | some q => some (if (parseSign s.data).1 then -q else q)
  | none => none

/-! ### Rate-limit ledger (`src/rate_limit.rs`) -/

/-- `RateLimitEntry { ts: f64, model: String, tokens: i64 }`. -/
structure RLEntry where
  ts : ℚ
  model : String
  tokens : ℤ
deriving DecidableEq

/-- `value_to_f64`. -/
def valueToF64 (v : Option Json) : ℚ :=
  match v with
  | some (.num q) => q
  | some (.str text) => (parseF64 text).getD 0
  | _ => 0

/-- `value_to_i64` (`as_i64`, else `as_u64 as i64`, else string parse, else 0). -/
def valueToI64 (v : Option Json) : ℤ :=
  match v with
  | some (.num q) =>
    match Json.asI64 (.num q) with
    | some i => i
    | none =>
      match Json.asU64 (.num q) with
      | some n => u64AsI64 n
      | none => 0
  | some (.str text) => (parseI64 text).getD 0
  | _ => 0

/-- One item of the `requests` array parsed into a `RateLimitEntry`
(the body of the loop in `extract_requests`). -/
def entryOfFields (fields : List (String × Json)) : RLEntry :=
  { ts := valueToF64 (lookupField fields "ts")
    model := ((lookupField fields "model").bind Json.asStr).getD ""
    tokens := valueToI64 (lookupField fields "tokens") }

/-- One item of the `requests` array: objects parse, anything else is
skipped (`continue` in the source loop). -/
def parseItem : Json → Option RLEntry
  | .obj fields => some (entryOfFields fields)
  | _ => none

/-- `extract_requests`: non-object items are skipped. -/
def extractRequests (payload : Json) : List RLEntry :=
  match payload.getKey "requests" with
  | some (.arr items) => items.filterMap parseItem
  | _ => []

/-- `rate_limit_entry_value` (serde's map is keyed, so only the bindings
matter, not their order). -/
def rateLimitEntryValue (e : RLEntry) : Json :=
  .obj [("ts", .num e.ts), ("model", .str e.model), ("tokens", .num (e.tokens : ℚ))]

/-- `is_recent`: `now - ts < window`.  (The `is_finite` guard of the source
is vacuous here: every `ℚ` models a finite `f64`.) -/
def isRecent (e : RLEntry) (now window : ℚ) : Bool := now - e.ts < window

/-- Stable insertion by ascending `ts` (model of `sort_by` on `partial_cmp`
of `ts`; the sleep computation below only depends on the multiset and the
`ts`-ordering, so any sort by `ts` is observationally equal to Rust's). -/
def insertByTs (e : RLEntry) : List RLEntry → List RLEntry
  | [] => [e]
  | x :: xs => if e.ts ≤ x.ts then e :: x :: xs else x :: insertByTs e xs

/-- Sort by ascending `ts`. -/
def sortByTs : List RLEntry → List RLEntry
  | [] => []
  | x :: xs => insertByTs x (sortByTs xs)

/-- The `recent` list of `rate_limit_sleep_seconds_at`: same-model entries
still inside the window, sorted by ascending `ts`. -/
def recentEntries (payload : Json) (model : String) (window now : ℚ) : List RLEntry :=
  sortByTs ((extractRequests payload).filter fun e =>
    e.model == model && isRecent e now window)

/-- Total tokens of a list of entries. -/
def sumTokens (l : List RLEntry) : ℤ := (l.map (·.tokens)).sum

/-- The TPM walk of `rate_limit_sleep_seconds_at`: accumulate dropped tokens
oldest-first; at the first entry where `dropped ≥ over` return its expiry
offset `ts + window - now`; `none` when the walk falls off the end. -/
def tpmWalkSleep (window now : ℚ) (over : ℤ) : List RLEntry → ℤ → Option ℚ
  | [], _ => none
  | e :: rest, dropped =>
    let d := dropped + e.tokens
    if over ≤ d then some (e.ts + window - now) else tpmWalkSleep window now over rest d

/-- The RPM gate: `sleep_for` after lines 92–98 of `rate_limit.rs`
(`sleep_for` starts at `0.0` and is raised by `max`). -/
def rpmSleepAt (recent : List RLEntry) (rpmLimit : ℕ) (window now : ℚ) : ℚ :=
  if 0 < rpmLimit ∧ rpmLimit ≤ recent.length then
    match recent[recent.length - rpmLimit]? with
    | some e => max 0 (e.ts + window - now)
    | none => 0
  else 0

/-- The TPM gate: `sleep_for` after lines 100–116 of `rate_limit.rs`,
starting from the value `s1` left by the RPM gate. -/
def tpmSleepAt (recent : List RLEntry) (tpmLimit estimatedTokens : ℕ)
    (window now : ℚ) (s1 : ℚ) : ℚ :=
  if 0 < tpmLimit ∧ (tpmLimit : ℤ) < sumTokens recent + (estimatedTokens : ℤ) then
    match tpmWalkSleep window now
        (sumTokens recent + (estimatedTokens : ℤ) - (tpmLimit : ℤ)) recent 0 with
    | some s => max s1 s
    | none => s1
  else s1

/-- The real-valued sleep `sleep_for` just before rounding
(`sleep_for.max(0.0)` at line 118 of `rate_limit.rs`). -/
def sleepForRealAt (payload : Json) (model : String) (window : ℚ)
    (tpmLimit rpmLimit estimatedTokens : ℕ) (now : ℚ) : ℚ :=
  max (tpmSleepAt (recentEntries payload model window now) tpmLimit estimatedTokens
    window now (rpmSleepAt (recentEntries payload model window now) rpmLimit window now)) 0

/-- `rate_limit_sleep_seconds_at`: the returned whole-second sleep,
`(sleep_for + 0.999).floor() as u64`. -/
def rateLimitSleepSecondsAt (payload : Json) (model : String) (window : ℚ)
    (tpmLimit rpmLimit estimatedTokens : ℕ) (now : ℚ) : ℕ :=
  (Int.floor (sleepForRealAt payload model window tpmLimit rpmLimit estimatedTokens now
    + 999 / 1000)).toNat

/-- `record_rate_usage_at` as a transformation of the parsed ledger payload
(the read-parse / serialize-write shell around it is I/O and not modelled;
`tokens as i64` is the `u64 → i64` wrapping cast). -/
def recordRateUsageAt (payload : Json) (model : String) (window : ℚ)
    (tokens : ℕ) (now : ℚ) : Json :=
  let requests := extractRequests payload
  let retained := requests.filter fun e => isRecent e now window
  let appended := retained ++ [⟨now, model, u64AsI64 tokens⟩]
  let entries := Json.arr (appended.map rateLimitEntryValue)
  match payload with
  | .obj fields => .obj (setField fields "requests" entries)
  | _ => .obj [("requests", entries)]

/-! ### Lemmas about the rate-limit model -/

/-- `ts`-ordering of entries. -/
def tsLE (a b : RLEntry) : Prop := a.ts ≤ b.ts

theorem insertByTs_perm (e : RLEntry) (l : List RLEntry) :
    List.Perm (insertByTs e l) (e :: l) := by
  induction l with
  | nil => simp [insertByTs]
  | cons x xs ih =>
    simp only [insertByTs]
    split
    · exact List.Perm.refl _
    · exact (List.Perm.cons x ih).trans (List.Perm.swap e x xs)

theorem sortByTs_perm (l : List RLEntry) : List.Perm (sortByTs l) l := by
  induction l with
  | nil => simp [sortByTs]
  | cons x xs ih =>
    exact (insertByTs_perm x (sortByTs xs)).trans (List.Perm.cons x ih)

theorem pairwise_insertByTs {e : RLEntry} {l : List RLEntry}
    (h : l.Pairwise tsLE) : (insertByTs e l).Pairwise tsLE := by
  induction l with
  | nil => simp [insertByTs, tsLE]
  | cons x xs ih =>
    simp only [insertByTs]
    split
    · rename_i hle
      refine List.Pairwise.cons ?_ h
      intro b hb
      rcases List.mem_cons.mp hb with hb | hb
      · exact hb ▸ hle
      · exact le_trans hle ((List.pairwise_cons.mp h).1 b hb)
    · rename_i hgt
      have hx := List.pairwise_cons.mp h
      refine List.Pairwise.cons ?_ (ih hx.2)
      intro b hb
      rcases List.mem_cons.mp ((insertByTs_perm e xs).mem_iff.mp hb) with hb | hb
      · subst hb
        exact le_of_not_le hgt
      · exact hx.1 b hb

theorem pairwise_sortByTs (l : List RLEntry) : (sortByTs l).Pairwise tsLE := by
  induction l with
  | nil => simp [sortByTs]
  | cons x xs ih => exact pairwise_insertByTs ih

/-- In a `ts`-sorted list, every element of `take (k+1)` is at most the
element at index `k`. -/
theorem sorted_take_le :
    ∀ (l : List RLEntry), l.Pairwise tsLE → ∀ (k : ℕ) (hk : k < l.length),
      ∀ e' ∈ l.take (k + 1), e'.ts ≤ (l.get ⟨k, hk⟩).ts := by
  intro l
  induction l with
  | nil => intro _ k hk; simp at hk
  | cons x xs ih =>
    intro h k hk e' he'
    have hx := List.pairwise_cons.mp h
    cases k with
    | zero =>
      simp only [List.take, List.take_zero, List.mem_singleton] at he'
      subst he'
      exact le_refl _
    | succ k =>
      have hk' : k < xs.length := by simpa using hk
      simp only [List.take, List.mem_cons] at he'
      have hget : (x :: xs).get ⟨k + 1, hk⟩ = xs.get ⟨k, hk'⟩ := rfl
      rcases he' with he' | he'
      · subst he'
        rw [hget]
        exact hx.1 _ (xs.get_mem _ _)
      · rw [hget]
        exact ih hx.2 k hk' e' he'

theorem countP_filter_of_imp (p q : RLEntry → Bool)
    (h : ∀ e, p e = true → q e = true) :
    ∀ l : List RLEntry, l.countP p = (l.filter q).countP p := by
  intro l
  induction l with
  | nil => rfl
  | cons x xs ih =>
    by_cases hq : q x = true
    · simp [List.countP_cons, List.filter_cons, hq, ih]
    · have hq' : q x = false := by simpa using hq
      have hp : p x = false := by
        cases hpx : p x with
        | false => rfl
        | true => exact absurd (h x hpx) hq
      simp [List.countP_cons, List.filter_cons, hq', hp, ih]

theorem filter_eq_filter_filter (p q : RLEntry → Bool)
    (h : ∀ e, p e = true → q e = true) :
    ∀ l : List RLEntry, l.filter p = (l.filter q).filter p := by
  intro l
  induction l with
  | nil => rfl
  | cons x xs ih =>
    by_cases hq : q x = true
    · simp [List.filter_cons, hq, ih]
    · have hq' : q x = false := by simpa using hq
      have hp : p x = false := by
        cases hpx : p x with
        | false => rfl
        | true => exact absurd (h x hpx) hq
      simp [List.filter_cons, hq', hp, ih]

theorem sumTokens_append (l₁ l₂ : List RLEntry) :
    sumTokens (l₁ ++ l₂) = sumTokens l₁ + sumTokens l₂ := by
  simp [sumTokens]

theorem sumTokens_filter_le (p : RLEntry → Bool) :
    ∀ l : List RLEntry, (∀ e ∈ l, 0 ≤ e.tokens) →
      sumTokens (l.filter p) ≤ sumTokens l := by
  intro l
  induction l with
  | nil => intro _; simp [sumTokens]
  | cons x xs ih =>
    intro h
    have hx : 0 ≤ x.tokens := h x (List.mem_cons_self x xs)
    have hxs := ih fun e he => h e (List.mem_cons_of_mem x he)
    have hcons : sumTokens (x :: xs) = x.tokens + sumTokens xs := by simp [sumTokens]
    by_cases hp : p x = true
    · have : sumTokens (x :: xs.filter p) = x.tokens + sumTokens (xs.filter p) := by
        simp [sumTokens]
      rw [List.filter_cons, if_pos hp, this, hcons]
      linarith
    · have hp' : p x = false := by simpa using hp
      rw [List.filter_cons, hp']
      simp only [Bool.false_eq_true, if_neg, not_false_iff]
      rw [hcons]
      linarith

theorem sumTokens_perm {l₁ l₂ : List RLEntry} (h : List.Perm l₁ l₂) :
    sumTokens l₁ = sumTokens l₂ :=
  List.Perm.sum_eq (List.Perm.map _ h)

/-- Extraction of the TPM walk's break point. -/
theorem tpmWalkSleep_some (window now : ℚ) (over : ℤ) :
    ∀ (l : List RLEntry) (dropped : ℤ) (s : ℚ),
      tpmWalkSleep window now over l dropped = some s →
      ∃ (k : ℕ) (hk : k < l.length),
        over ≤ dropped + sumTokens (l.take (k + 1))
        ∧ s = (l.get ⟨k, hk⟩).ts + window - now := by
  intro l
  induction l with
  | nil => intro dropped s h; simp [tpmWalkSleep] at h
  | cons x xs ih =>
    intro dropped s h
    simp only [tpmWalkSleep] at h
    split at h
    · rename_i hover
      refine ⟨0, by simp, ?_, ?_⟩
      · simpa [sumTokens] using hover
      · exact (Option.some_inj.mp h).symm
    · rename_i hover
      obtain ⟨k, hk, h1, h2⟩ := ih (dropped + x.tokens) s h
      refine ⟨k + 1, by simpa using hk, ?_, ?_⟩
      · have : sumTokens ((x :: xs).take (k + 1 + 1)) =
            x.tokens + sumTokens (xs.take (k + 1)) := by
          simp [sumTokens]
        rw [this]
        linarith
      · exact h2

theorem tpmWalkSleep_none (window now : ℚ) (over : ℤ) :
    ∀ (l : List RLEntry) (dropped : ℤ),
      tpmWalkSleep window now over l dropped = none →
      l = [] ∨ dropped + sumTokens l < over := by
  intro l
  induction l with
  | nil => intro _ _; exact Or.inl rfl
  | cons x xs ih =>
    intro dropped h
    simp only [tpmWalkSleep] at h
    split at h
    · exact absurd h (by simp)
    · rename_i hover
      right
      have hcons : sumTokens (x :: xs) = x.tokens + sumTokens xs := by simp [sumTokens]
      rcases ih (dropped + x.tokens) h with hnil | hlt
      · subst hnil
        have hone : sumTokens [x] = x.tokens := by simp [sumTokens]
        rw [hone]
        omega
      · rw [hcons]
        omega

theorem rpmSleep_le_tpmSleep (recent : List RLEntry) (tpm est : ℕ)
    (window now s1 : ℚ) : s1 ≤ tpmSleepAt recent tpm est window now s1 := by
  unfold tpmSleepAt
  split
  · split
    · exact le_max_left _ _
    · exact le_refl _
  · exact le_refl _

theorem sleepForReal_nonneg (payload : Json) (model : String) (window : ℚ)
    (tpm rpm est : ℕ) (now : ℚ) :
    0 ≤ sleepForRealAt payload model window tpm rpm est now := by
  unfold sleepForRealAt
  exact le_max_right _ _

theorem tpmSleep_le_sleepForReal (payload : Json) (model : String) (window : ℚ)
    (tpm rpm est : ℕ) (now : ℚ) :
    tpmSleepAt (recentEntries payload model window now) tpm est window now
      (rpmSleepAt (recentEntries payload model window now) rpm window now)
    ≤ sleepForRealAt payload model window tpm rpm est now := by
  unfold sleepForRealAt
  exact le_max_left _ _

theorem rpmSleep_le_sleepForReal (payload : Json) (model : String) (window : ℚ)
    (tpm rpm est : ℕ) (now : ℚ) :
    rpmSleepAt (recentEntries payload model window now) rpm window now
    ≤ sleepForRealAt payload model window tpm rpm est now :=
  le_trans (rpmSleep_le_tpmSleep _ _ _ _ _ _) (tpmSleep_le_sleepForReal _ _ _ _ _ _ _)

/-- Claim C1 (corrected; amended form).  Sleeping for any `t` at least the
pre-rounding sleep `sleep_for = max(rpm_sleep, tpm_sleep, 0)` satisfies both
limits — the count of still-recent same-model entries drops below `rpm` and
the still-recent token sum plus the estimate fits in `tpm` — provided both
limits are enabled (`rpm > 0`, `tpm > 0`), the estimate alone fits in the
TPM budget (`estimated ≤ tpm`), and the ledger's token counts are
non-negative.  The returned whole-second sleep exceeds `sleep_for` except
when a positive residual under `0.001` is rounded down (see C2), so it
inherits these bounds outside that corner. -/
theorem sleepForReal_satisfies_limits
    (payload : Json) (model : String) (window : ℚ) (tpm rpm est : ℕ) (now : ℚ)
    (hrpm : 0 < rpm) (htpm : 0 < tpm) (hest : est ≤ tpm)
    (htok : ∀ e ∈ extractRequests payload, 0 ≤ e.tokens)
    (t : ℚ) (ht : sleepForRealAt payload model window tpm rpm est now ≤ t) :
    (extractRequests payload).countP
        (fun e => e.model == model && isRecent e (now + t) window) < rpm
    ∧ sumTokens ((extractRequests payload).filter
        (fun e => e.model == model && isRecent e (now + t) window)) + (est : ℤ)
      ≤ (tpm : ℤ) := by
  have ht0 : (0 : ℚ) ≤ t := le_trans (sleepForReal_nonneg _ _ _ _ _ _ _) ht
  set reqs := extractRequests payload with hreqsdef
  set p : RLEntry → Bool :=
    fun e => e.model == model && isRecent e (now + t) window with hpdef
  set q : RLEntry → Bool :=
    fun e => e.model == model && isRecent e now window with hqdef
  have hRdef : recentEntries payload model window now = sortByTs (reqs.filter q) := rfl
  set R := sortByTs (reqs.filter q) with hRset
  have hperm : List.Perm R (reqs.filter q) := sortByTs_perm _
  have hsorted : R.Pairwise tsLE := pairwise_sortByTs _
  have hpq : ∀ e, p e = true → q e = true := by
    intro e hpe
    simp only [hpdef, hqdef, Bool.and_eq_true, beq_iff_eq, isRecent,
      decide_eq_true_eq] at hpe ⊢
    exact ⟨hpe.1, by linarith [hpe.2]⟩
  have hRtok : ∀ e ∈ R, 0 ≤ e.tokens := by
    intro e he
    exact htok e (List.mem_of_mem_filter (hperm.mem_iff.mp he))
  have hcountbase : reqs.countP p = R.countP p := by
    rw [countP_filter_of_imp p q hpq reqs]
    exact (hperm.countP_eq p).symm
  have hcount : reqs.countP p < rpm := by
    by_cases hlen : rpm ≤ R.length
    · have hk : R.length - rpm < R.length := by omega
      set k := R.length - rpm with hkdef
      have hs1 : (R.get ⟨k, hk⟩).ts + window - now ≤ rpmSleepAt R rpm window now := by
        have hval : rpmSleepAt R rpm window now
            = max 0 ((R.get ⟨k, hk⟩).ts + window - now) := by
          unfold rpmSleepAt
          rw [if_pos ⟨hrpm, hlen⟩, List.getElem?_eq_getElem hk]
          rfl
        rw [hval]
        exact le_max_right _ _
      have hent : (R.get ⟨k, hk⟩).ts + window - now ≤ t := by
        refine le_trans hs1 (le_trans ?_ ht)
        exact rpmSleep_le_sleepForReal payload model window tpm rpm est now
      have hpre : ∀ e' ∈ R.take (k + 1), ¬ p e' = true := by
        intro e' he' hpe
        have hts : e'.ts ≤ (R.get ⟨k, hk⟩).ts := sorted_take_le R hsorted k hk e' he'
        simp only [hpdef, Bool.and_eq_true, beq_iff_eq, isRecent,
          decide_eq_true_eq] at hpe
        linarith [hpe.2]
      calc reqs.countP p = R.countP p := hcountbase
        _ = (R.take (k + 1) ++ R.drop (k + 1)).countP p := by
            rw [List.take_append_drop]
        _ = (R.take (k + 1)).countP p + (R.drop (k + 1)).countP p :=
            List.countP_append _ _ _
        _ = 0 + (R.drop (k + 1)).countP p := by
            rw [List.countP_eq_zero.mpr hpre]
        _ ≤ (R.drop (k + 1)).length := by
            simpa using List.countP_le_length (l := R.drop (k + 1)) (p := p)
        _ = R.length - (k + 1) := List.length_drop _ _
        _ < rpm := by omega
    · calc reqs.countP p = R.countP p := hcountbase
        _ ≤ R.length := List.countP_le_length _
        _ < rpm := by omega
  have hfpp : reqs.filter p = (reqs.filter q).filter p :=
    filter_eq_filter_filter p q hpq reqs
  have hsum_eq : sumTokens (reqs.filter p) = sumTokens (R.filter p) := by
    rw [hfpp]
    exact (sumTokens_perm (hperm.filter p)).symm
  have hsum : sumTokens (reqs.filter p) + (est : ℤ) ≤ (tpm : ℤ) := by
    by_cases hgate : (tpm : ℤ) < sumTokens R + (est : ℤ)
    · cases hwalk : tpmWalkSleep window now (sumTokens R + (est : ℤ) - (tpm : ℤ)) R 0 with
      | none =>
        exfalso
        rcases tpmWalkSleep_none _ _ _ R 0 hwalk with hnil | hlt
        · have hzero : sumTokens R = 0 := by rw [hnil]; simp [sumTokens]
          omega
        · omega
      | some s =>
        obtain ⟨k, hk, hover, hs⟩ := tpmWalkSleep_some _ _ _ R 0 s hwalk
        have hts : s ≤ t := by
          have h1 : s ≤ tpmSleepAt R tpm est window now (rpmSleepAt R rpm window now) := by
            have hval : tpmSleepAt R tpm est window now (rpmSleepAt R rpm window now)
                = max (rpmSleepAt R rpm window now) s := by
              unfold tpmSleepAt
              rw [if_pos ⟨htpm, hgate⟩, hwalk]
            rw [hval]
            exact le_max_right _ _
          refine le_trans h1 (le_trans ?_ ht)
          exact tpmSleep_le_sleepForReal payload model window tpm rpm est now
        have hpre : ∀ e' ∈ R.take (k + 1), ¬ p e' = true := by
          intro e' he' hpe
          have hts' : e'.ts ≤ (R.get ⟨k, hk⟩).ts := sorted_take_le R hsorted k hk e' he'
          simp only [hpdef, Bool.and_eq_true, beq_iff_eq, isRecent,
            decide_eq_true_eq] at hpe
          rw [hs] at hts
          linarith [hpe.2]
        have hsplit : sumTokens R
            = sumTokens (R.take (k + 1)) + sumTokens (R.drop (k + 1)) := by
          rw [← sumTokens_append, List.take_append_drop]
        have hprefix : (R.take (k + 1)).filter p = [] := by
          rw [List.filter_eq_nil_iff]
          exact hpre
        have hfR : sumTokens (R.filter p) = sumTokens ((R.drop (k + 1)).filter p) := by
          conv_lhs => rw [← List.take_append_drop (k + 1) R]
          rw [List.filter_append, hprefix]
          rfl
        have hdrople : sumTokens ((R.drop (k + 1)).filter p) ≤ sumTokens (R.drop (k + 1)) :=
          sumTokens_filter_le p _ (fun e he => hRtok e (List.mem_of_mem_drop he))
        omega
    · have h1 : sumTokens (reqs.filter p) ≤ sumTokens (reqs.filter q) := by
        rw [hfpp]
        exact sumTokens_filter_le p _
          (fun e he => htok e (List.mem_of_mem_filter he))
      have hused : sumTokens R = sumTokens (reqs.filter q) := sumTokens_perm hperm
      omega
  exact ⟨hcount, hsum⟩

/-! ### Rounding (claim C2) -/

/-- The whole-second rounding `(x + 0.999).floor()` agrees with the
ceiling exactly when the fractional part of `x` is `0` or at least `1/1000`. -/
theorem floorRound_eq_ceil (s : ℚ) (hs0 : 0 ≤ s)
    (h : Int.fract s = 0 ∨ 1 / 1000 ≤ Int.fract s) :
    ((Int.floor (s + 999 / 1000)).toNat : ℤ) = Int.ceil s := by
  have h2 : (0 : ℤ) ≤ Int.floor (s + 999 / 1000) :=
    Int.floor_nonneg.mpr (by linarith)
  rw [Int.toNat_of_nonneg h2]
  rcases h with h | h
  · have hfl : (Int.floor s : ℚ) = s := by
      have haf := Int.floor_add_fract s
      rw [h, add_zero] at haf
      exact haf
    have hfrac : (⌊(999 / 1000 : ℚ)⌋ : ℤ) = 0 := by
      rw [Int.floor_eq_zero_iff]
      constructor <;> norm_num
    rw [← hfl, Int.floor_int_add, Int.ceil_intCast, hfrac, add_zero]
  · have hlt : Int.fract s < 1 := Int.fract_lt_one s
    have hadd : s + 999 / 1000 = (Int.floor s : ℚ) + (Int.fract s + 999 / 1000) := by
      have haf := Int.floor_add_fract s
      linarith
    have h9 : (⌊Int.fract s + 999 / 1000⌋ : ℤ) = 1 := by
      rw [Int.floor_eq_iff]
      constructor
      · push_cast
        linarith
      · push_cast
        linarith
    have hceil : Int.ceil s = Int.floor s + 1 := by
      rw [Int.ceil_eq_iff]
      have hf : Int.fract s = s - Int.floor s := rfl
      constructor
      · push_cast
        rw [hf] at h
        linarith
      · push_cast
        rw [hf] at hlt
        linarith
    rw [hadd, Int.floor_int_add, h9, hceil]

/-! ### Record round-trip (claim C3) -/

theorem lookupField_setField_self (fs : List (String × Json)) (k : String) (v : Json) :
    lookupField (setField fs k v) k = some v := by
  induction fs with
  | nil => simp [setField, lookupField]
  | cons x rest ih =>
    obtain ⟨k', v'⟩ := x
    by_cases h : k' = k
    · simp [setField, lookupField, h]
    · simp [setField, lookupField, h, ih]

theorem lookupField_setField_ne (fs : List (String × Json)) (k : String) (v : Json)
    (key : String) (h : key ≠ k) :
    lookupField (setField fs k v) key = lookupField fs key := by
  have hk' : ¬ k = key := fun hh => h hh.symm
  induction fs with
  | nil =>
    simp only [setField, lookupField]
    rw [if_neg hk']
  | cons x rest ih =>
    obtain ⟨k', v'⟩ := x
    simp only [setField]
    by_cases hk : k' = k
    · rw [if_pos hk]
      subst hk
      simp only [lookupField]
      rw [if_neg hk', if_neg hk']
    · rw [if_neg hk]
      simp only [lookupField]
      rw [ih]

theorem u64AsI64_range (n : ℕ) (hn : n < 2 ^ 64) :
    -(2 ^ 63) ≤ u64AsI64 n ∧ u64AsI64 n < 2 ^ 63 := by
  unfold u64AsI64
  split <;> omega

theorem signedOfDigits_range (neg : Bool) (n : ℕ) (i : ℤ)
    (h : signedOfDigits neg n = some i) : -(2 ^ 63) ≤ i ∧ i < 2 ^ 63 := by
  unfold signedOfDigits at h
  split at h
  · rename_i hcond
    cases h
    exact hcond
  · exact absurd h (by simp)

theorem parseI64_range (s : String) (i : ℤ) (h : parseI64 s = some i) :
    -(2 ^ 63) ≤ i ∧ i < 2 ^ 63 := by
  unfold parseI64 at h
  split at h
  · exact absurd h (by simp)
  · exact signedOfDigits_range _ _ _ h

theorem valueToI64_range (v : Option Json) :
    -(2 ^ 63) ≤ valueToI64 v ∧ valueToI64 v < 2 ^ 63 := by
  match v with
  | none => constructor <;> norm_num [valueToI64]
  | some .null => constructor <;> norm_num [valueToI64]
  | some (.bool b) => constructor <;> norm_num [valueToI64]
  | some (.arr l) => constructor <;> norm_num [valueToI64]
  | some (.obj fs) => constructor <;> norm_num [valueToI64]
  | some (.num q) =>
    simp only [valueToI64]
    cases hi : Json.asI64 (.num q) with
    | some i =>
      simp only [Json.asI64] at hi
      split at hi
      · rename_i hcond
        cases hi
        exact ⟨hcond.2.1, hcond.2.2⟩
      · exact absurd hi (by simp)
    | none =>
      cases hu : Json.asU64 (.num q) with
      | some n =>
        simp only [Json.asU64] at hu
        split at hu
        · rename_i hcond
          cases hu
          exact u64AsI64_range _ (by omega)
        · exact absurd hu (by simp)
      | none => constructor <;> norm_num
  | some (.str t) =>
    simp only [valueToI64]
    cases hp : parseI64 t with
    | none => constructor <;> norm_num
    | some i =>
      simpa using parseI64_range t i hp

theorem extractRequests_tokens_range (payload : Json) :
    ∀ e ∈ extractRequests payload, -(2 ^ 63) ≤ e.tokens ∧ e.tokens < 2 ^ 63 := by
  intro e he
  unfold extractRequests at he
  split at he
  · obtain ⟨item, _, hsome⟩ := List.mem_filterMap.mp he
    unfold parseItem at hsome
    split at hsome
    · cases hsome
      exact valueToI64_range _
    · exact absurd hsome (by simp)
  · exact absurd he (by simp)

theorem asI64_intCast (i : ℤ) (h1 : -(2 ^ 63) ≤ i) (h2 : i < 2 ^ 63) :
    Json.asI64 (Json.num (i : ℚ)) = some i := by
  simp only [Json.asI64]
  rw [if_pos]
  · rw [Rat.num_intCast]
  · refine ⟨Rat.den_intCast i, ?_, ?_⟩ <;> rw [Rat.num_intCast]
    · exact h1
    · exact h2

theorem entryValue_parse (e : RLEntry) (h1 : -(2 ^ 63) ≤ e.tokens)
    (h2 : e.tokens < 2 ^ 63) : parseItem (rateLimitEntryValue e) = some e := by
  have hts : lookupField [("ts", Json.num e.ts), ("model", Json.str e.model),
      ("tokens", Json.num (e.tokens : ℚ))] "ts" = some (Json.num e.ts) := rfl
  have hmodel : lookupField [("ts", Json.num e.ts), ("model", Json.str e.model),
      ("tokens", Json.num (e.tokens : ℚ))] "model" = some (Json.str e.model) := rfl
  have htok : lookupField [("ts", Json.num e.ts), ("model", Json.str e.model),
      ("tokens", Json.num (e.tokens : ℚ))] "tokens"
      = some (Json.num (e.tokens : ℚ)) := rfl
  have hval : valueToI64 (some (Json.num (e.tokens : ℚ))) = e.tokens := by
    simp only [valueToI64, asI64_intCast e.tokens h1 h2]
  show some (entryOfFields _) = some e
  unfold entryOfFields
  rw [hts, hmodel, htok, hval]
  rfl

theorem map_entryValue_parse :
    ∀ l : List RLEntry, (∀ e ∈ l, -(2 ^ 63) ≤ e.tokens ∧ e.tokens < 2 ^ 63) →
      (l.map rateLimitEntryValue).filterMap parseItem = l := by
  intro l
  induction l with
  | nil => intro _; rfl
  | cons x xs ih =>
    intro h
    have hx := h x (List.mem_cons_self x xs)
    simp only [List.map_cons, List.filterMap_cons, entryValue_parse x hx.1 hx.2]
    rw [ih fun e he => h e (List.mem_cons_of_mem x he)]

theorem extractRequests_setField (fields : List (String × Json)) (l : List RLEntry)
    (h : ∀ e ∈ l, -(2 ^ 63) ≤ e.tokens ∧ e.tokens < 2 ^ 63) :
    extractRequests (Json.obj (setField fields "requests"
      (Json.arr (l.map rateLimitEntryValue)))) = l := by
  unfold extractRequests
  have hget : (Json.obj (setField fields "requests"
      (Json.arr (l.map rateLimitEntryValue)))).getKey "requests"
      = some (Json.arr (l.map rateLimitEntryValue)) :=
    lookupField_setField_self fields "requests" _
  rw [hget]
  exact map_entryValue_parse l h

/-- Claim C3 (confirmed).  For every prior ledger content and every
`(model, window, tokens, now)`, after `record_rate_usage_at` the `requests`
field of the written payload parses to exactly the prior entries with
`now - ts < window` (all models) followed by the new `{ts: now, model,
tokens}` entry, and every other top-level key is preserved unchanged.
(`tokens` is a `u64`, hence the range hypothesis.) -/
theorem record_preserves_and_appends (payload : Json) (model : String)
    (window : ℚ) (tokens : ℕ) (now : ℚ) (htokens : tokens < 2 ^ 64) :
    extractRequests (recordRateUsageAt payload model window tokens now)
      = (extractRequests payload).filter (fun e => isRecent e now window)
        ++ [⟨now, model, u64AsI64 tokens⟩]
    ∧ ∀ key, key ≠ "requests" →
        (recordRateUsageAt payload model window tokens now).getKey key
          = payload.getKey key := by
  have hrange : ∀ e ∈ (extractRequests payload).filter (fun e => isRecent e now window)
      ++ [⟨now, model, u64AsI64 tokens⟩],
      -(2 ^ 63) ≤ e.tokens ∧ e.tokens < 2 ^ 63 := by
    intro e he
    rcases List.mem_append.mp he with he | he
    · exact extractRequests_tokens_range payload e (List.mem_of_mem_filter he)
    · rcases List.mem_singleton.mp he with rfl
      exact u64AsI64_range tokens htokens
  constructor
  · cases payload with
    | obj fields => exact extractRequests_setField fields _ hrange
    | null => exact extractRequests_setField [] _ hrange
    | bool b => exact extractRequests_setField [] _ hrange
    | num q => exact extractRequests_setField [] _ hrange
    | str t => exact extractRequests_setField [] _ hrange
    | arr l => exact extractRequests_setField [] _ hrange
  · intro key hkey
    have hkey' : ¬ ("requests" : String) = key := fun hh => hkey hh.symm
    unfold recordRateUsageAt
    cases payload with
    | obj fields => exact lookupField_setField_ne fields "requests" _ key hkey
    | null => simp only [Json.getKey, lookupField]; rw [if_neg hkey']
    | bool b => simp only [Json.getKey, lookupField]; rw [if_neg hkey']
    | num q => simp only [Json.getKey, lookupField]; rw [if_neg hkey']
    | str t => simp only [Json.getKey, lookupField]; rw [if_neg hkey']
    | arr l => simp only [Json.getKey, lookupField]; rw [if_neg hkey']

/-! ### Concrete ledgers for counterexamples and witnesses -/

/-- A ledger with one entry of 50 tokens at `ts = 990`. -/
def ledgerOne : Json := .obj [("requests", .arr [
  .obj [("ts", .num 990), ("model", .str "m"), ("tokens", .num 50)]])]

/-- A ledger whose single entry expires `1/2000` of a second after `now = 1000`
under a 60-second window. -/
def ledgerTiny : Json := .obj [("requests", .arr [
  .obj [("ts", .num (940 + 1 / 2000)), ("model", .str "m"), ("tokens", .num 10)]])]

/-- A ledger with three same-model entries inside the window. -/
def ledgerThree : Json := .obj [("requests", .arr [
  .obj [("ts", .num 950), ("model", .str "m"), ("tokens", .num 10)],
  .obj [("ts", .num 980), ("model", .str "m"), ("tokens", .num 20)],
  .obj [("ts", .num 990), ("model", .str "m"), ("tokens", .num 30)]])]

/-- Claim C1, counterexample.  With `tpm = 200 < estimated = 300` the TPM
walk never accumulates enough tokens, so the computed sleep is `0` and after
sleeping it the still-recent token sum plus the estimate (`50 + 300`) still
exceeds `tpm = 200`: the claimed invariant fails as stated for this
parameter tuple. -/
theorem rate_limit_sleep_claim_fails_when_estimate_exceeds_tpm :
    rateLimitSleepSecondsAt ledgerOne "m" 60 200 500 300 1000 = 0
    ∧ ¬ (sumTokens ((extractRequests ledgerOne).filter
        (fun e => e.model == "m" && isRecent e
          ((1000 : ℚ) + (rateLimitSleepSecondsAt ledgerOne "m" 60 200 500 300 1000 : ℕ)) 60))
      + (300 : ℤ) ≤ (200 : ℤ)) := by
  constructor
  · decide
  · decide

/-- Claim C1, witness for the amended theorem: the three-entry ledger with
`tpm = 100`, `rpm = 2`, `estimated = 40` at `now = 1000` computes a sleep of
`40` seconds, after which one entry is still recent (below `rpm = 2`) and
`30 + 40 ≤ 100` tokens fit. -/
theorem sleepForReal_satisfies_limits_witness :
    (extractRequests ledgerThree).countP
        (fun e => e.model == "m" && isRecent e ((1000 : ℚ) + 40) 60) < 2
    ∧ sumTokens ((extractRequests ledgerThree).filter
        (fun e => e.model == "m" && isRecent e ((1000 : ℚ) + 40) 60)) + (40 : ℤ)
      ≤ (100 : ℤ) :=
  sleepForReal_satisfies_limits ledgerThree "m" 60 100 2 40 1000
    (by decide) (by decide) (by decide) (by decide) 40 (by decide)

/-- Claim C2 (corrected; amended form).  The returned sleep is
`⌊sleep_for + 0.999⌋` (as a `u64`), which equals `sleep_for` rounded up to
the next whole second whenever the fractional part of `sleep_for` is zero or
at least `1/1000`; positive residuals below `1/1000` are instead rounded
down (see the counterexample). -/
theorem rateLimitSleep_eq_ceil_outside_corner (payload : Json) (model : String)
    (window : ℚ) (tpm rpm est : ℕ) (now : ℚ)
    (h : Int.fract (sleepForRealAt payload model window tpm rpm est now) = 0
      ∨ 1 / 1000 ≤ Int.fract (sleepForRealAt payload model window tpm rpm est now)) :
    (rateLimitSleepSecondsAt payload model window tpm rpm est now : ℤ)
      = Int.ceil (sleepForRealAt payload model window tpm rpm est now) :=
  floorRound_eq_ceil _ (sleepForReal_nonneg payload model window tpm rpm est now) h

/-- Claim C2, witness: on the three-entry ledger the pre-rounding sleep is
exactly `40`, whose fractional part is zero, and the returned sleep equals
its ceiling. -/
theorem rateLimitSleep_eq_ceil_witness :
    (rateLimitSleepSecondsAt ledgerThree "m" 60 0 2 0 1000 : ℤ)
      = Int.ceil (sleepForRealAt ledgerThree "m" 60 0 2 0 1000) :=
  rateLimitSleep_eq_ceil_outside_corner ledgerThree "m" 60 0 2 0 1000
    (Or.inl (by decide))

/-- Claim C2, counterexample.  A residual of `1/2000` of a second is rounded
down to `0`, not up to `1`: the pre-rounding sleep is strictly between `0`
and `1` yet the returned sleep is `0` (the claimed ceiling would be `1`). -/
theorem rate_limit_sleep_rounds_tiny_residual_down :
    rateLimitSleepSecondsAt ledgerTiny "m" 60 0 1 0 1000 = 0
    ∧ 0 < sleepForRealAt ledgerTiny "m" 60 0 1 0 1000
    ∧ sleepForRealAt ledgerTiny "m" 60 0 1 0 1000 < 1
    ∧ Int.ceil (sleepForRealAt ledgerTiny "m" 60 0 1 0 1000) = 1 := by
  refine ⟨by decide, by decide, by decide, by decide⟩

/-- Claim C3, witness: recording 5 tokens for model `m` at `now = 1000`
prunes the stale entry at `ts = 800`, keeps the recent one, appends the new
entry, and preserves the unrelated top-level key. -/
theorem record_preserves_and_appends_witness :
    extractRequests (recordRateUsageAt (Json.obj [("requests", Json.arr [
        Json.obj [("ts", Json.num 800), ("model", Json.str "m2"), ("tokens", Json.num 10)],
        Json.obj [("ts", Json.num 990), ("model", Json.str "m1"), ("tokens", Json.num 20)]]),
        ("extra", Json.str "keep")]) "m" 60 5 1000)
      = (extractRequests (Json.obj [("requests", Json.arr [
        Json.obj [("ts", Json.num 800), ("model", Json.str "m2"), ("tokens", Json.num 10)],
        Json.obj [("ts", Json.num 990), ("model", Json.str "m1"), ("tokens", Json.num 20)]]),
        ("extra", Json.str "keep")])).filter (fun e => isRecent e 1000 60)
        ++ [⟨1000, "m", u64AsI64 5⟩]
    ∧ ∀ key, key ≠ "requests" →
        (recordRateUsageAt (Json.obj [("requests", Json.arr [
          Json.obj [("ts", Json.num 800), ("model", Json.str "m2"), ("tokens", Json.num 10)],
          Json.obj [("ts", Json.num 990), ("model", Json.str "m1"), ("tokens", Json.num 20)]]),
          ("extra", Json.str "keep")]) "m" 60 5 1000).getKey key
          = (Json.obj [("requests", Json.arr [
          Json.obj [("ts", Json.num 800), ("model", Json.str "m2"), ("tokens", Json.num 10)],
          Json.obj [("ts", Json.num 990), ("model", Json.str "m1"), ("tokens", Json.num 20)]]),
          ("extra", Json.str "keep")]).getKey key :=
  record_preserves_and_appends _ "m" 60 5 1000 (by norm_num)

/-! ### Task metadata validation (`src/task_metadata.rs`) -/

/-- `title_valid` in `validate_task_metadata`. -/
def titleValid (raw : Json) : Bool :=
  match raw.getKey "title" with
  | some (.str v) => v ≠ ""
  | _ => false

/-- `dod_valid` in `validate_task_metadata`. -/
def dodValid (raw : Json) : Bool :=
  match raw.getKey "definition_of_done" with
  | some (.arr items) =>
    !items.isEmpty && items.all fun item =>
      match item with
      | Json.str v => v ≠ ""
      | _ => false
  | _ => false

/-- `recommended_valid` in `validate_task_metadata`. -/
def recommendedValid (raw : Json) : Bool :=
  match raw.getKey "recommended" with
  | some (.obj map) =>
    if map.length ≠ 1 then false
    else
      match lookupField map "approach" with
      | some (.str v) => v ≠ ""
      | _ => false
  | _ => false

/-- `validate_task_metadata`: the list of missing/invalid field names; the
source returns `Ok(())` exactly when this list is empty, and the error's
`exit_code()` is 2. -/
def missingMetadata (raw : Json) : List String :=
  (if titleValid raw then [] else ["title"])
  ++ (if dodValid raw then [] else ["definition_of_done"])
  ++ (if recommendedValid raw then [] else ["recommended.approach"])

/-! ### Task selection (`select_task` in `src/task_agent.rs`) -/

/-- The task's `status` string, defaulting to `unstarted`. -/
def statusOf (t : Json) : String :=
  ((t.getKey "status").bind Json.asStr).getD "unstarted"

/-- The task's `task_id` as a string, when present. -/
def taskIdOf (t : Json) : Option String := (t.getKey "task_id").bind Json.asStr

/-- The task's `model` string, defaulting to `""`. -/
def modelOf (t : Json) : String := ((t.getKey "model").bind Json.asStr).getD ""

/-- `tasks_array`: a top-level array, or an object with a `tasks` array. -/
def tasksArray : Json → Option (List Json)
  | .arr items => some items
  | .obj map => (lookupField map "tasks").bind Json.asArr
  | _ => none

/-- The `SelectedTask` struct (its `raw_json` string is the serialization of
`raw` and is not modelled separately). -/
structure Selection where
  taskId : String
  status : String
  model : String
  title : String
  definitionOfDone : List String
  recommendedApproach : String
  verificationCommands : List String
  raw : Json

/-- Construction of the `SelectedTask` fields from the chosen task. -/
def mkSelection (taskId : String) (t : Json) : Selection :=
  { taskId := taskId
    status := statusOf t
    model := modelOf t
    title := ((t.getKey "title").bind Json.asStr).getD ""
    definitionOfDone :=
      (((t.getKey "definition_of_done").bind Json.asArr).getD []).filterMap Json.asStr
    recommendedApproach :=
      (((t.getKey "recommended").bind fun r =>
        match r with
        | Json.obj m => lookupField m "approach"
        | _ => none).bind Json.asStr).getD ""
    verificationCommands :=
      (((((t.getKey "verification").bind fun r =>
        match r with
        | Json.obj m => lookupField m "commands"
        | _ => none).bind Json.asArr).getD []).filterMap Json.asStr).map String.trim
        |>.filter (fun s => s ≠ "")
    raw := t }

/-- `select_task`, as a function of the parsed tasks file; `Except.error`
carries the exit code.  (Reading and parsing the file is I/O; an unreadable
or unparsable file also maps to exit code 2 in the source.) -/
def selectTaskRoot (root : Json) (requestedTaskId : Option String)
    (allowNext : Bool) : Except ℕ Selection :=
  match tasksArray root with
  | none => .error 2
  | some tasks =>
    match tasks.find? (fun t => statusOf t ≠ "completed") with
    | none => .error 3
    | some t =>
      match taskIdOf t with
      | some tid =>
        if tid = "" then .error 3
        else if modelOf t = "human" then .error 4
        else
          match requestedTaskId with
          | some requested =>
            if requested ≠ tid then .error 6 else .ok (mkSelection tid t)
          | none =>
            if ¬ allowNext then .error 2 else .ok (mkSelection tid t)
      | none => .error 3

/-- `model_supported`. -/
def modelSupported (model : String) : Bool :=
  model == "gpt-5.1-codex-mini" || model == "gpt-5.1-codex" || model == "gpt-5.2-codex"

theorem find?_append_first (p : Json → Bool) :
    ∀ (pre : List Json) (t : Json) (post : List Json),
      (∀ u ∈ pre, p u = false) → p t = true →
      (pre ++ t :: post).find? p = some t := by
  intro pre
  induction pre with
  | nil =>
    intro t post _ ht
    simp [List.find?_cons_of_pos, ht]
  | cons x xs ih =>
    intro t post hpre ht
    have hx : p x = false := hpre x (List.mem_cons_self x xs)
    rw [List.cons_append, List.find?_cons_of_neg _ (by simp [hx])]
    exact ih t post (fun u hu => hpre u (List.mem_cons_of_mem x hu)) ht

/-- Claim C4 (corrected; amended form).  During admission the first task
with `status ≠ completed` is selected; if no such task exists the exit code
is 3; provided that task carries a non-empty string `task_id` (otherwise
exit code 3, see C10): if its model is `human` the exit code is 4, else if
the caller requested a different id the exit code is 6, else if neither an
id nor `--next` was given the exit code is 2, and otherwise that task is
selected. -/
theorem select_task_admission (root : Json) (tasks : List Json)
    (req : Option String) (an : Bool) (harr : tasksArray root = some tasks) :
    ((∀ u ∈ tasks, statusOf u = "completed") → selectTaskRoot root req an = .error 3)
    ∧ (∀ pre t post tid, tasks = pre ++ t :: post →
        (∀ u ∈ pre, statusOf u = "completed") → statusOf t ≠ "completed" →
        taskIdOf t = some tid → tid ≠ "" →
        ((modelOf t = "human" → selectTaskRoot root req an = .error 4)
        ∧ (modelOf t ≠ "human" → ∀ r, req = some r → r ≠ tid →
            selectTaskRoot root req an = .error 6)
        ∧ (modelOf t ≠ "human" → req = none → an = false →
            selectTaskRoot root req an = .error 2)
        ∧ (modelOf t ≠ "human" → (req = some tid ∨ (req = none ∧ an = true)) →
            selectTaskRoot root req an = .ok (mkSelection tid t)))) := by
  constructor
  · intro hall
    have hfind : tasks.find? (fun t => statusOf t ≠ "completed") = none := by
      rw [List.find?_eq_none]
      intro u hu
      simp [hall u hu]
    unfold selectTaskRoot
    simp only [harr, hfind]
  · intro pre t post tid hsplit hpre ht hid hne
    have hfind : tasks.find? (fun t => statusOf t ≠ "completed") = some t := by
      rw [hsplit]
      refine find?_append_first _ pre t post ?_ ?_
      · intro u hu
        simp [hpre u hu]
      · simp [ht]
    have hstep : selectTaskRoot root req an =
        (if modelOf t = "human" then .error 4
         else
           match req with
           | some requested =>
             if requested ≠ tid then .error 6 else .ok (mkSelection tid t)
           | none =>
             if ¬ an then .error 2 else .ok (mkSelection tid t)) := by
      unfold selectTaskRoot
      simp only [harr, hfind, hid]
      rw [if_neg hne]
    refine ⟨?_, ?_, ?_, ?_⟩
    · intro hhuman
      rw [hstep, if_pos hhuman]
    · intro hhuman r hreq hrne
      rw [hstep, if_neg hhuman, hreq]
      simp only [if_pos hrne]
    · intro hhuman hreq han
      rw [hstep, if_neg hhuman, hreq, han]
      simp
    · intro hhuman hok
      rcases hok with hreq | ⟨hreq, han⟩
      · rw [hstep, if_neg hhuman, hreq]
        simp
      · rw [hstep, if_neg hhuman, hreq, han]
        simp

/-- Claim C10 (confirmed).  When the first task whose status is not
`completed` lacks a non-empty string `task_id`, `select_task` returns exit
code 3 regardless of what follows it in the list — in particular even when a
later task is runnable and well-formed. -/
theorem select_task_invalid_id_exits_three (root : Json) (tasks : List Json)
    (req : Option String) (an : Bool) (pre : List Json) (t : Json) (post : List Json)
    (harr : tasksArray root = some tasks) (hsplit : tasks = pre ++ t :: post)
    (hpre : ∀ u ∈ pre, statusOf u = "completed") (ht : statusOf t ≠ "completed")
    (hid : taskIdOf t = none ∨ taskIdOf t = some "") :
    selectTaskRoot root req an = .error 3 := by
  have hfind : tasks.find? (fun t => statusOf t ≠ "completed") = some t := by
    rw [hsplit]
    refine find?_append_first _ pre t post ?_ ?_
    · intro u hu
      simp [hpre u hu]
    · simp [ht]
  rcases hid with hid | hid
  · unfold selectTaskRoot
    simp only [harr, hfind, hid]
  · unfold selectTaskRoot
    simp only [harr, hfind, hid]
    simp

/-- A first non-completed task whose model is `human` but which lacks a
`task_id`: the source exits 3, not 4. -/
def tasksHumanNoId : Json :=
  .arr [.obj [("status", .str "unstarted"), ("model", .str "human")]]

/-- Claim C4, counterexample: with `tasksHumanNoId` the first non-completed
task's model is `human`, yet selection exits 3 (no runnable task), not 4 as
the claim states. -/
theorem select_task_human_without_id_not_four :
    selectTaskRoot tasksHumanNoId none true = .error 3
    ∧ modelOf (.obj [("status", .str "unstarted"), ("model", .str "human")]) = "human"
    ∧ (Except.error 3 : Except ℕ Selection) ≠ .error 4 := by
  refine ⟨rfl, rfl, ?_⟩
  simp

/-- Claim C4, witness: a well-formed single `human` task is rejected with
exit code 4. -/
theorem select_task_admission_witness :
    selectTaskRoot (.arr [.obj [("task_id", .str "A"), ("status", .str "unstarted"),
      ("model", .str "human")]]) none true = .error 4 :=
  ((select_task_admission
      (.arr [.obj [("task_id", .str "A"), ("status", .str "unstarted"),
        ("model", .str "human")]])
      [.obj [("task_id", .str "A"), ("status", .str "unstarted"),
        ("model", .str "human")]]
      none true rfl).2 [] (.obj [("task_id", .str "A"), ("status", .str "unstarted"),
        ("model", .str "human")]) [] "A" rfl (by simp)
    (by decide) rfl (by decide)).1 rfl

/-- Claim C10, witness: the first non-completed task lacks `task_id`, so the
exit code is 3 even though the next task in the list is runnable and
well-formed. -/
theorem select_task_invalid_id_exits_three_witness :
    selectTaskRoot (.arr [
      .obj [("status", .str "started")],
      .obj [("task_id", .str "B"), ("status", .str "unstarted"),
        ("model", .str "gpt-5.2-codex"), ("title", .str "t"),
        ("definition_of_done", .arr [.str "d"]),
        ("recommended", .obj [("approach", .str "a")])]]) (some "B") true
    = .error 3 :=
  select_task_invalid_id_exits_three _ _ (some "B") true []
    (.obj [("status", .str "started")]) _ rfl rfl (by simp) (by decide) (Or.inl rfl)

/-! ### Task store operations (`src/task_agent.rs`) -/

/-- Index of the first task whose `task_id` string equals `tid`
(`iter().find(...)` in the source). -/
def firstIdxWith (tid : String) : List Json → Option ℕ
  | [] => none
  | t :: ts =>
    if taskIdOf t = some tid then some 0
    else (firstIdxWith tid ts).map (· + 1)

/-- `task_object_mut` applied to the first task with id `tid`: replace its
field list by `f` of it. -/
def applyAt (ts : List Json) (tid : String)
    (f : List (String × Json) → List (String × Json)) : Except String (List Json) :=
  match firstIdxWith tid ts with
  | none => .error ("Task " ++ tid ++ " not found")
  | some i =>
    match ts.getD i Json.null with
    | .obj fields => .ok (ts.set i (.obj (f fields)))
    | _ => .error "Task entry is not an object"

/-- Read-modify-write of the tasks file around a single-task field update
(`tasks_array_mut` hands out the array while preserving the envelope). -/
def modifyFirstTask (root : Json) (tid : String)
    (f : List (String × Json) → List (String × Json)) : Except String Json :=
  match root with
  | .arr ts => (applyAt ts tid f).map Json.arr
  | .obj fields =>
    match lookupField fields "tasks" with
    | some (.arr ts) =>
      (applyAt ts tid f).map fun ts' => .obj (setField fields "tasks" (.arr ts'))
    | _ => .error "Tasks file is not a list"
  | _ => .error "Tasks file is not a list"

/-- `ensure_observability`: make `observability` an object, inserting `{}`
when absent or non-object. -/
def ensureObservability (fields : List (String × Json)) : List (String × Json) :=
  match lookupField fields "observability" with
  | some (.obj _) => fields
  | _ => setField fields "observability" (.obj [])

/-- Update the observability object of a task's field list. -/
def obsUpdate (fields : List (String × Json))
    (g : List (String × Json) → List (String × Json)) : List (String × Json) :=
  match lookupField (ensureObservability fields) "observability" with
  | some (.obj obs) =>
    setField (ensureObservability fields) "observability" (.obj (g obs))
  | _ => ensureObservability fields

/-- The observability field list a mutation starts from (`{}` when absent
or non-object). -/
def obsBase (fields : List (String × Json)) : List (String × Json) :=
  match lookupField fields "observability" with
  | some (.obj m) => m
  | _ => []

/-- `observability.run_attempts` of a task (`as_u64`, default 0), as read by
`current_attempt_count`. -/
def taskAttemptsOf (t : Json) : ℕ :=
  (((t.getKey "observability").bind fun o =>
    match o with
    | Json.obj m => lookupField m "run_attempts"
    | _ => none).bind Json.asU64).getD 0

/-- Total view of a task's attempt counter in a tasks file (0 when the file
shape or the task is missing); used to state the attempt-count invariants. -/
def attemptsView (root : Json) (tid : String) : ℕ :=
  match tasksArray root with
  | some ts =>
    match firstIdxWith tid ts with
    | some i => taskAttemptsOf (ts.getD i Json.null)
    | none => 0
  | none => 0

/-- The status string of the first task with id `tid`. -/
def statusView (root : Json) (tid : String) : Option String :=
  match tasksArray root with
  | some ts =>
    match firstIdxWith tid ts with
    | some i => ((ts.getD i Json.null).getKey "status").bind Json.asStr
    | none => none
  | none => none

/-- The `observability.last_note` string of the first task with id `tid`. -/
def noteView (root : Json) (tid : String) : Option String :=
  match tasksArray root with
  | some ts =>
    match firstIdxWith tid ts with
    | some i =>
      ((((ts.getD i Json.null).getKey "observability").bind fun o =>
        match o with
        | Json.obj m => lookupField m "last_note"
        | _ => none).bind Json.asStr)
    | none => none
  | none => none

/-- `current_attempt_count`. -/
def currentAttemptCount (root : Json) (tid : String) : Except String ℕ :=
  match tasksArray root with
  | none => .error "Tasks file is not a list"
  | some ts =>
    match firstIdxWith tid ts with
    | none => .error ("Task " ++ tid ++ " not found")
    | some i => .ok (taskAttemptsOf (ts.getD i Json.null))

/-- `increment_attempt_count`: fetch current, insert `current + 1`, rewrite. -/
def incrementAttemptCount (root : Json) (tid : String) : Except String (Json × ℕ) :=
  match currentAttemptCount root tid with
  | .error e => .error e
  | .ok current =>
    (modifyFirstTask root tid fun fields =>
      obsUpdate fields fun obs =>
        setField obs "run_attempts" (.num ((current + 1 : ℕ) : ℚ))).map
      fun root' => (root', current + 1)

/-- `update_task_status` (`tsStr` stands for the `last_update_utc` timestamp
the source obtains from the `date` subprocess). -/
def updateTaskStatus (root : Json) (tid newStatus runId tsStr note : String) :
    Except String Json :=
  modifyFirstTask root tid fun fields =>
    obsUpdate (setField fields "status" (.str newStatus)) fun obs =>
      if note = "" then
        setField (setField obs "last_run_id" (.str runId)) "last_update_utc" (.str tsStr)
      else
        setField (setField (setField obs "last_run_id" (.str runId))
          "last_update_utc" (.str tsStr)) "last_note" (.str note)

/-- `reset_task_attempts`. -/
def resetTaskAttempts (root : Json) (tid runId tsStr note : String) :
    Except String Json :=
  modifyFirstTask root tid fun fields =>
    obsUpdate (setField fields "status" (.str "unstarted")) fun obs =>
      if note = "" then
        setField (setField (setField obs "run_attempts" (.num 0))
          "last_run_id" (.str runId)) "last_update_utc" (.str tsStr)
      else
        setField (setField (setField (setField obs "run_attempts" (.num 0))
          "last_run_id" (.str runId)) "last_update_utc" (.str tsStr))
          "last_note" (.str note)

/-! ### Lemmas about the task store -/

theorem taskIdOf_some_obj (t : Json) (s : String) (h : taskIdOf t = some s) :
    ∃ fields, t = Json.obj fields := by
  cases t with
  | obj fields => exact ⟨fields, rfl⟩
  | null => exact absurd h (by simp [taskIdOf, Json.getKey])
  | bool b => exact absurd h (by simp [taskIdOf, Json.getKey])
  | num q => exact absurd h (by simp [taskIdOf, Json.getKey])
  | str v => exact absurd h (by simp [taskIdOf, Json.getKey])
  | arr l => exact absurd h (by simp [taskIdOf, Json.getKey])

theorem firstIdxWith_spec (tid : String) :
    ∀ (ts : List Json) (i : ℕ), firstIdxWith tid ts = some i →
      i < ts.length ∧ taskIdOf (ts.getD i Json.null) = some tid := by
  intro ts
  induction ts with
  | nil => intro i h; simp [firstIdxWith] at h
  | cons t rest ih =>
    intro i h
    simp only [firstIdxWith] at h
    split at h
    · rename_i hid
      cases h
      exact ⟨by simp, by simpa using hid⟩
    · rename_i hid
      cases hr : firstIdxWith tid rest with
      | none => rw [hr] at h; exact absurd h (by simp)
      | some j =>
        rw [hr] at h
        cases h
        obtain ⟨hj, hjid⟩ := ih j hr
        exact ⟨by simpa using hj, by simpa using hjid⟩

theorem getD_set_self : ∀ (ts : List Json) (i : ℕ) (t' d : Json), i < ts.length →
    (ts.set i t').getD i d = t' := by
  intro ts
  induction ts with
  | nil => intro i t' d h; simp at h
  | cons x rest ih =>
    intro i t' d h
    cases i with
    | zero => rfl
    | succ j => exact ih j t' d (by simpa using h)

theorem getD_set_ne : ∀ (ts : List Json) (i j : ℕ) (t' d : Json), i ≠ j →
    (ts.set i t').getD j d = ts.getD j d := by
  intro ts
  induction ts with
  | nil => intro i j t' d h; simp [List.set]
  | cons x rest ih =>
    intro i j t' d h
    cases i with
    | zero =>
      cases j with
      | zero => exact absurd rfl h
      | succ j' => rfl
    | succ i' =>
      cases j with
      | zero => rfl
      | succ j' => exact ih i' j' t' d (by omega)

theorem firstIdxWith_set (tid' : String) :
    ∀ (ts : List Json) (i : ℕ) (t' : Json),
      taskIdOf t' = taskIdOf (ts.getD i Json.null) →
      firstIdxWith tid' (ts.set i t') = firstIdxWith tid' ts := by
  intro ts
  induction ts with
  | nil => intro i t' h; simp [List.set]
  | cons x rest ih =>
    intro i t' h
    cases i with
    | zero =>
      show firstIdxWith tid' (t' :: rest) = firstIdxWith tid' (x :: rest)
      simp only [firstIdxWith]
      rw [show taskIdOf t' = taskIdOf x from h]
    | succ i' =>
      show firstIdxWith tid' (x :: rest.set i' t') = firstIdxWith tid' (x :: rest)
      simp only [firstIdxWith]
      rw [ih i' t' (by simpa using h)]

theorem applyAt_spec (ts : List Json) (tid : String)
    (f : List (String × Json) → List (String × Json)) (ts' : List Json)
    (h : applyAt ts tid f = .ok ts') :
    ∃ i fields, firstIdxWith tid ts = some i ∧ ts.getD i Json.null = .obj fields
      ∧ ts' = ts.set i (.obj (f fields)) := by
  unfold applyAt at h
  split at h
  · exact absurd h (by simp)
  · rename_i i hidx
    split at h
    · rename_i fields hfields
      cases h
      exact ⟨i, fields, hidx, hfields, rfl⟩
    · exact absurd h (by simp)

theorem applyAt_ok (ts : List Json) (tid : String)
    (f : List (String × Json) → List (String × Json)) (i : ℕ)
    (hidx : firstIdxWith tid ts = some i) :
    ∃ fields, ts.getD i Json.null = .obj fields
      ∧ applyAt ts tid f = .ok (ts.set i (.obj (f fields))) := by
  obtain ⟨hlt, hid⟩ := firstIdxWith_spec tid ts i hidx
  obtain ⟨fields, hf⟩ := taskIdOf_some_obj _ _ hid
  refine ⟨fields, hf, ?_⟩
  unfold applyAt
  simp only [hidx, hf]

theorem modifyFirstTask_spec (root : Json) (tid : String)
    (f : List (String × Json) → List (String × Json)) (root' : Json)
    (h : modifyFirstTask root tid f = .ok root') :
    ∃ ts i fields, tasksArray root = some ts ∧ firstIdxWith tid ts = some i
      ∧ ts.getD i Json.null = .obj fields
      ∧ tasksArray root' = some (ts.set i (.obj (f fields))) := by
  cases root with
  | arr ts =>
    simp only [modifyFirstTask] at h
    cases ha : applyAt ts tid f with
    | error e => rw [ha] at h; exact absurd h (by simp [Except.map])
    | ok ts' =>
      rw [ha] at h
      simp only [Except.map] at h
      cases h
      obtain ⟨i, fields, hidx, hfields, hset⟩ := applyAt_spec ts tid f ts' ha
      exact ⟨ts, i, fields, rfl, hidx, hfields, by rw [hset]; rfl⟩
  | obj fields0 =>
    simp only [modifyFirstTask] at h
    split at h
    · rename_i ts hlk
      cases ha : applyAt ts tid f with
      | error e => rw [ha] at h; exact absurd h (by simp [Except.map])
      | ok ts' =>
        rw [ha] at h
        simp only [Except.map] at h
        cases h
        obtain ⟨i, fields, hidx, hfields, hset⟩ := applyAt_spec ts tid f ts' ha
        refine ⟨ts, i, fields, ?_, hidx, hfields, ?_⟩
        · simp [tasksArray, hlk, Json.asArr]
        · simp [tasksArray, lookupField_setField_self, Json.asArr, hset]
    · exact absurd h (by simp)
  | null => exact absurd h (by simp [modifyFirstTask])
  | bool b => exact absurd h (by simp [modifyFirstTask])
  | num q => exact absurd h (by simp [modifyFirstTask])
  | str s => exact absurd h (by simp [modifyFirstTask])

theorem modifyFirstTask_ok (root : Json) (tid : String)
    (f : List (String × Json) → List (String × Json)) (ts : List Json) (i : ℕ)
    (harr : tasksArray root = some ts) (hidx : firstIdxWith tid ts = some i) :
    ∃ root', modifyFirstTask root tid f = .ok root' := by
  obtain ⟨fields, hf, happ⟩ := applyAt_ok ts tid f i hidx
  cases root with
  | arr ts0 =>
    have : ts0 = ts := by simpa [tasksArray] using harr
    subst this
    exact ⟨Json.arr (ts0.set i (Json.obj (f fields))),
      by simp [modifyFirstTask, happ, Except.map]⟩
  | obj fields0 =>
    simp only [tasksArray] at harr
    cases hlk : lookupField fields0 "tasks" with
    | none => rw [hlk] at harr; exact absurd harr (by simp)
    | some v =>
      rw [hlk] at harr
      cases v with
      | arr ts0 =>
        have : ts0 = ts := by simpa [Json.asArr] using harr
        subst this
        exact ⟨Json.obj (setField fields0 "tasks"
            (Json.arr (ts0.set i (Json.obj (f fields))))),
          by simp [modifyFirstTask, hlk, happ, Except.map]⟩
      | null => exact absurd harr (by simp [Json.asArr])
      | bool b => exact absurd harr (by simp [Json.asArr])
      | num q => exact absurd harr (by simp [Json.asArr])
      | str s => exact absurd harr (by simp [Json.asArr])
      | obj m => exact absurd harr (by simp [Json.asArr])
  | null => exact absurd harr (by simp [tasksArray])
  | bool b => exact absurd harr (by simp [tasksArray])
  | num q => exact absurd harr (by simp [tasksArray])
  | str s => exact absurd harr (by simp [tasksArray])

theorem lookupField_ensureObservability (fields : List (String × Json)) :
    lookupField (ensureObservability fields) "observability"
      = some (.obj (obsBase fields)) := by
  unfold ensureObservability obsBase
  cases h : lookupField fields "observability" with
  | none => simp [lookupField_setField_self]
  | some v => cases v <;> simp [h, lookupField_setField_self]

theorem lookupField_ensureObservability_ne (fields : List (String × Json))
    (k : String) (hk : k ≠ "observability") :
    lookupField (ensureObservability fields) k = lookupField fields k := by
  unfold ensureObservability
  cases h : lookupField fields "observability" with
  | none => exact lookupField_setField_ne _ _ _ _ hk
  | some v => cases v <;> first | rfl | exact lookupField_setField_ne _ _ _ _ hk

theorem obsUpdate_eq (fields : List (String × Json))
    (g : List (String × Json) → List (String × Json)) :
    obsUpdate fields g = setField (ensureObservability fields) "observability"
      (.obj (g (obsBase fields))) := by
  unfold obsUpdate
  simp only [lookupField_ensureObservability]

theorem lookupField_obsUpdate (fields : List (String × Json))
    (g : List (String × Json) → List (String × Json)) :
    lookupField (obsUpdate fields g) "observability" = some (.obj (g (obsBase fields))) := by
  rw [obsUpdate_eq]
  exact lookupField_setField_self _ _ _

theorem lookupField_obsUpdate_ne (fields : List (String × Json))
    (g : List (String × Json) → List (String × Json)) (k : String)
    (hk : k ≠ "observability") :
    lookupField (obsUpdate fields g) k = lookupField fields k := by
  rw [obsUpdate_eq, lookupField_setField_ne _ _ _ _ hk]
  exact lookupField_ensureObservability_ne fields k hk

theorem obsBase_congr (fields' fields : List (String × Json))
    (h : lookupField fields' "observability" = lookupField fields "observability") :
    obsBase fields' = obsBase fields := by
  unfold obsBase
  rw [h]

theorem taskAttemptsOf_eq_base (fields : List (String × Json)) :
    taskAttemptsOf (.obj fields)
      = ((lookupField (obsBase fields) "run_attempts").bind Json.asU64).getD 0 := by
  have hL : taskAttemptsOf (.obj fields)
      = (((lookupField fields "observability").bind fun o =>
          match o with
          | Json.obj m => lookupField m "run_attempts"
          | _ => none).bind Json.asU64).getD 0 := rfl
  rw [hL]
  unfold obsBase
  cases h : lookupField fields "observability" with
  | none => simp [lookupField]
  | some v => cases v <;> simp [lookupField]

theorem taskIdOf_obj (fields : List (String × Json)) :
    taskIdOf (.obj fields) = (lookupField fields "task_id").bind Json.asStr := rfl

theorem obsBase_obsUpdate (fields : List (String × Json))
    (g : List (String × Json) → List (String × Json)) :
    obsBase (obsUpdate fields g) = g (obsBase fields) := by
  unfold obsBase
  simp only [lookupField_obsUpdate]
  rfl

/-- The attempt counter seen through an `obsUpdate` whose inner function and
outer field rewrites leave `run_attempts` and `observability` alone. -/
theorem taskAttemptsOf_obsUpdate (fields' fields : List (String × Json))
    (g : List (String × Json) → List (String × Json))
    (hobs : lookupField fields' "observability" = lookupField fields "observability")
    (hg : ∀ obs, lookupField (g obs) "run_attempts" = lookupField obs "run_attempts") :
    taskAttemptsOf (.obj (obsUpdate fields' g)) = taskAttemptsOf (.obj fields) := by
  rw [taskAttemptsOf_eq_base, taskAttemptsOf_eq_base, obsBase_obsUpdate, hg,
    obsBase_congr fields' fields hobs]

theorem asU64_natCast (n : ℕ) (h : n < 2 ^ 64) :
    Json.asU64 (.num (n : ℚ)) = some n := by
  simp only [Json.asU64]
  rw [if_pos]
  · rw [Rat.num_natCast]
    simp
  · refine ⟨Rat.den_natCast n, ?_, ?_⟩ <;> rw [Rat.num_natCast]
    · exact Int.ofNat_nonneg n
    · exact_mod_cast h

theorem attemptsView_eq (root : Json) (tid : String) (ts : List Json)
    (harr : tasksArray root = some ts) :
    attemptsView root tid = (match firstIdxWith tid ts with
      | some i => taskAttemptsOf (ts.getD i Json.null)
      | none => 0) := by
  unfold attemptsView
  rw [harr]

theorem statusView_eq (root : Json) (tid : String) (ts : List Json)
    (harr : tasksArray root = some ts) :
    statusView root tid = (match firstIdxWith tid ts with
      | some i => ((ts.getD i Json.null).getKey "status").bind Json.asStr
      | none => none) := by
  unfold statusView
  rw [harr]

theorem noteView_eq (root : Json) (tid : String) (ts : List Json)
    (harr : tasksArray root = some ts) :
    noteView root tid = (match firstIdxWith tid ts with
      | some i =>
        ((((ts.getD i Json.null).getKey "observability").bind fun o =>
          match o with
          | Json.obj m => lookupField m "last_note"
          | _ => none).bind Json.asStr)
      | none => none) := by
  unfold noteView
  rw [harr]

/-- Attempt counters are untouched by a task mutation that preserves
`task_id` and `run_attempts` of the modified task. -/
theorem attemptsView_after_modify (root : Json) (tid : String)
    (F : List (String × Json) → List (String × Json)) (root' : Json)
    (h : modifyFirstTask root tid F = .ok root')
    (hid : ∀ fields, taskIdOf (.obj (F fields)) = taskIdOf (.obj fields))
    (hatt : ∀ fields, taskAttemptsOf (.obj (F fields)) = taskAttemptsOf (.obj fields)) :
    ∀ tid', attemptsView root' tid' = attemptsView root tid' := by
  intro tid'
  obtain ⟨ts, i, fields, harr, hidx, hfields, harr'⟩ := modifyFirstTask_spec root tid F root' h
  obtain ⟨hlt, _⟩ := firstIdxWith_spec tid ts i hidx
  have hpres : taskIdOf (Json.obj (F fields)) = taskIdOf (ts.getD i Json.null) := by
    rw [hid fields, hfields]
  rw [attemptsView_eq root tid' ts harr, attemptsView_eq root' tid' _ harr',
    firstIdxWith_set tid' ts i _ hpres]
  cases hj : firstIdxWith tid' ts with
  | none => rfl
  | some j =>
    by_cases hji : j = i
    · subst hji
      simp only [getD_set_self ts j _ _ hlt, hatt fields, hfields]
    · simp only [getD_set_ne ts i j _ _ (fun hh => hji hh.symm)]

/-- `task_id` survives the field rewrites done by the status/attempt
mutations (they only touch `status` and `observability`). -/
theorem taskIdOf_statusObs (fields : List (String × Json)) (st : Json)
    (g : List (String × Json) → List (String × Json)) :
    taskIdOf (.obj (obsUpdate (setField fields "status" st) g))
      = taskIdOf (.obj fields) := by
  rw [taskIdOf_obj, taskIdOf_obj,
    lookupField_obsUpdate_ne _ _ "task_id" (by decide),
    lookupField_setField_ne _ _ _ _ (by decide)]

theorem taskIdOf_obsOnly (fields : List (String × Json))
    (g : List (String × Json) → List (String × Json)) :
    taskIdOf (.obj (obsUpdate fields g)) = taskIdOf (.obj fields) := by
  rw [taskIdOf_obj, taskIdOf_obj,
    lookupField_obsUpdate_ne _ _ "task_id" (by decide)]

theorem currentAttemptCount_spec (root : Json) (tid : String) (a : ℕ)
    (h : currentAttemptCount root tid = .ok a) :
    a = attemptsView root tid
    ∧ ∃ ts i, tasksArray root = some ts ∧ firstIdxWith tid ts = some i := by
  unfold currentAttemptCount at h
  split at h
  · exact absurd h (by simp)
  · rename_i ts harr
    split at h
    · exact absurd h (by simp)
    · rename_i i hidx
      cases h
      refine ⟨?_, ts, i, harr, hidx⟩
      rw [attemptsView_eq root tid ts harr, hidx]

theorem updateTaskStatus_spec (root : Json) (tid st rid tss note : String)
    (root' : Json) (h : updateTaskStatus root tid st rid tss note = .ok root') :
    (∀ tid', attemptsView root' tid' = attemptsView root tid')
    ∧ statusView root' tid = some st
    ∧ (note ≠ "" → noteView root' tid = some note) := by
  unfold updateTaskStatus at h
  have hg : ∀ obs : List (String × Json),
      lookupField (if note = "" then
          setField (setField obs "last_run_id" (Json.str rid))
            "last_update_utc" (Json.str tss)
        else
          setField (setField (setField obs "last_run_id" (Json.str rid))
            "last_update_utc" (Json.str tss)) "last_note" (Json.str note))
        "run_attempts" = lookupField obs "run_attempts" := by
    intro obs
    by_cases hn : note = ""
    · rw [if_pos hn, lookupField_setField_ne _ _ _ _ (by decide),
        lookupField_setField_ne _ _ _ _ (by decide)]
    · rw [if_neg hn, lookupField_setField_ne _ _ _ _ (by decide),
        lookupField_setField_ne _ _ _ _ (by decide),
        lookupField_setField_ne _ _ _ _ (by decide)]
  refine ⟨?_, ?_, ?_⟩
  · refine attemptsView_after_modify root tid _ root' h
      (fun fields => taskIdOf_statusObs fields _ _) ?_
    intro fields
    exact taskAttemptsOf_obsUpdate _ fields _
      (lookupField_setField_ne _ _ _ _ (by decide)) hg
  · obtain ⟨ts, i, fields, harr, hidx, hfields, harr'⟩ :=
      modifyFirstTask_spec root tid _ root' h
    obtain ⟨hlt, _⟩ := firstIdxWith_spec tid ts i hidx
    have hpres : taskIdOf (Json.obj (obsUpdate (setField fields "status" (Json.str st))
        (fun obs => if note = "" then
          setField (setField obs "last_run_id" (Json.str rid))
            "last_update_utc" (Json.str tss)
        else
          setField (setField (setField obs "last_run_id" (Json.str rid))
            "last_update_utc" (Json.str tss)) "last_note" (Json.str note))))
        = taskIdOf (ts.getD i Json.null) := by
      rw [taskIdOf_statusObs, hfields]
    rw [statusView_eq root' tid _ harr', firstIdxWith_set tid ts i _ hpres]
    simp only [hidx]
    rw [getD_set_self ts i _ _ hlt]
    show (lookupField _ "status").bind Json.asStr = some st
    rw [lookupField_obsUpdate_ne _ _ "status" (by decide),
      lookupField_setField_self]
    rfl
  · intro hn
    obtain ⟨ts, i, fields, harr, hidx, hfields, harr'⟩ :=
      modifyFirstTask_spec root tid _ root' h
    obtain ⟨hlt, _⟩ := firstIdxWith_spec tid ts i hidx
    have hpres : taskIdOf (Json.obj (obsUpdate (setField fields "status" (Json.str st))
        (fun obs => if note = "" then
          setField (setField obs "last_run_id" (Json.str rid))
            "last_update_utc" (Json.str tss)
        else
          setField (setField (setField obs "last_run_id" (Json.str rid))
            "last_update_utc" (Json.str tss)) "last_note" (Json.str note))))
        = taskIdOf (ts.getD i Json.null) := by
      rw [taskIdOf_statusObs, hfields]
    rw [noteView_eq root' tid _ harr', firstIdxWith_set tid ts i _ hpres]
    simp only [hidx]
    rw [getD_set_self ts i _ _ hlt]
    show ((lookupField _ "observability").bind _).bind Json.asStr = some note
    rw [lookupField_obsUpdate]
    show (lookupField _ "last_note").bind Json.asStr = some note
    rw [if_neg hn, lookupField_setField_self]
    rfl

theorem incrementAttemptCount_spec (root : Json) (tid : String) (root' : Json) (n : ℕ)
    (h : incrementAttemptCount root tid = .ok (root', n))
    (hsmall : attemptsView root tid + 1 < 2 ^ 64) :
    n = attemptsView root tid + 1
    ∧ attemptsView root' tid = attemptsView root tid + 1
    ∧ ∀ tid', tid' ≠ tid → attemptsView root' tid' = attemptsView root tid' := by
  unfold incrementAttemptCount at h
  split at h
  · exact absurd h (by simp)
  · rename_i current hcur
    cases hm : modifyFirstTask root tid (fun fields =>
        obsUpdate fields fun obs =>
          setField obs "run_attempts" (Json.num ((current + 1 : ℕ) : ℚ))) with
    | error e => rw [hm] at h; exact absurd h (by simp [Except.map])
    | ok r2 =>
      rw [hm] at h
      simp only [Except.map] at h
      cases h
      obtain ⟨hceq, ts1, i1, harr1, hidx1⟩ := currentAttemptCount_spec root tid current hcur
      subst hceq
      obtain ⟨ts, i, fields, harr, hidx, hfields, harr'⟩ :=
        modifyFirstTask_spec root tid _ root' hm
      obtain ⟨hlt, _⟩ := firstIdxWith_spec tid ts i hidx
      have hpres : taskIdOf (Json.obj (obsUpdate fields fun obs =>
          setField obs "run_attempts"
            (Json.num ((attemptsView root tid + 1 : ℕ) : ℚ))))
          = taskIdOf (ts.getD i Json.null) := by
        rw [taskIdOf_obsOnly, hfields]
      refine ⟨rfl, ?_, ?_⟩
      · rw [attemptsView_eq root' tid _ harr', firstIdxWith_set tid ts i _ hpres]
        simp only [hidx]
        rw [getD_set_self ts i _ _ hlt]
        rw [taskAttemptsOf_eq_base, obsBase_obsUpdate, lookupField_setField_self]
        rw [Option.some_bind, asU64_natCast _ hsmall, Option.getD_some]
      · intro tid' hne
        obtain ⟨_, hidm⟩ := firstIdxWith_spec tid ts i hidx
        rw [attemptsView_eq root tid' ts harr, attemptsView_eq root' tid' _ harr',
          firstIdxWith_set tid' ts i _ hpres]
        cases hj : firstIdxWith tid' ts with
        | none => rfl
        | some j =>
          obtain ⟨_, hjdm⟩ := firstIdxWith_spec tid' ts j hj
          have hji : j ≠ i := by
            intro hh
            subst hh
            rw [hjdm] at hidm
            exact hne (Option.some_inj.mp hidm)
          simp only [getD_set_ne ts i j _ _ (fun hh => hji hh.symm)]

theorem updateTaskStatus_ok (root : Json) (tid st rid tss note : String)
    (ts : List Json) (i : ℕ) (harr : tasksArray root = some ts)
    (hidx : firstIdxWith tid ts = some i) :
    ∃ root', updateTaskStatus root tid st rid tss note = .ok root' := by
  unfold updateTaskStatus
  exact modifyFirstTask_ok root tid _ ts i harr hidx

theorem incrementAttemptCount_ok (root : Json) (tid : String)
    (ts : List Json) (i : ℕ) (harr : tasksArray root = some ts)
    (hidx : firstIdxWith tid ts = some i) :
    ∃ root' n, incrementAttemptCount root tid = .ok (root', n) := by
  have hcur : currentAttemptCount root tid
      = .ok (taskAttemptsOf (ts.getD i Json.null)) := by
    unfold currentAttemptCount
    simp only [harr, hidx]
  obtain ⟨root', hm⟩ := modifyFirstTask_ok root tid (fun fields =>
    obsUpdate fields fun obs =>
      setField obs "run_attempts"
        (Json.num ((taskAttemptsOf (ts.getD i Json.null) + 1 : ℕ) : ℚ))) ts i harr hidx
  refine ⟨root', taskAttemptsOf (ts.getD i Json.null) + 1, ?_⟩
  unfold incrementAttemptCount
  simp only [hcur, hm, Except.map]

/-- A task found before a status/observability mutation is still found
afterwards, at the same index. -/
theorem found_after_modify (root : Json) (tid : String)
    (F : List (String × Json) → List (String × Json)) (root' : Json)
    (h : modifyFirstTask root tid F = .ok root')
    (hid : ∀ fields, taskIdOf (.obj (F fields)) = taskIdOf (.obj fields))
    (tid' : String) (ts : List Json) (j : ℕ) (harr : tasksArray root = some ts)
    (hidx' : firstIdxWith tid' ts = some j) :
    ∃ ts', tasksArray root' = some ts' ∧ firstIdxWith tid' ts' = some j := by
  obtain ⟨ts0, i, fields, harr0, hidx, hfields, harr'⟩ :=
    modifyFirstTask_spec root tid F root' h
  rw [harr0] at harr
  cases harr
  refine ⟨_, harr', ?_⟩
  rw [firstIdxWith_set tid' ts i _ (by rw [hid, hfields])]
  exact hidx'

/-! ### Pipeline model (`run_task_agent` in `src/task_agent.rs`)

The pipeline talks to the outside world (subprocesses, the clock, the file
system under `runs/`) through a `PipelineOracle`: each field records what the
corresponding side effect would return.  The tasks file is threaded explicitly
as a `Json` root; observable side effects that do not touch the tasks file
(git commits, process spawns, verification) are recorded as `Event`s in
chronological order.  File writes that the source only propagates as errors
(`fs::write`, `create_dir_all`, log streaming) are elided as successful. -/

inductive Event where
  | spawnAssembly
  | spawnCodex
  | commitProgress
  | finalizeBranch
  | runVerify
deriving DecidableEq

/-- `AssemblyOutcome` in `src/task_agent.rs` (an `Err` from `run_assembly` is
converted by the caller into `Failed { code: None, .. }`, covered here by
`failed none msg`). -/
inductive AssemblyOutcome where
  | success
  | interrupted
  | failed (code : Option ℤ) (message : String)

/-- Result of the codex retry loop: either an interrupt (exit 130 or shutdown
observed right after an attempt) or completion with the last exit code and
whether `result.json` existed non-empty at the final check. -/
inductive LoopResult where
  | interrupted
  | done (exit : ℤ) (found : Bool)
deriving DecidableEq

structure PipeConfig where
  resetTask : Bool
  contextEnabled : Bool
  contextRequired : Bool

structure PipelineOracle where
  codexAvailable : Bool
  shutdown : ℕ → Bool
  assembly : AssemblyOutcome
  codexExit : ℕ → ℤ
  resultNonEmpty : ℕ → Bool
  retryDelay : ℕ → Option ℕ
  resultJson : Option Json
  verifyOk : Bool
  runId : String
  timestamp : String
  resultPathStr : String
  codexLogPathStr : String
  assemblyStdoutStr : String
  assemblyStderrStr : String

def attemptLimitNote (attempts : ℕ) : String :=
  "Attempt limit reached (" ++ toString attempts
    ++ "/3). Use --reset-task after human intervention."

def interruptNote (runId : String) (runAttempt : ℕ) : String :=
  "Run " ++ runId ++ " interrupted on attempt " ++ toString runAttempt

def missingResultNote (exit : ℤ) (codexLogPath : String) : String :=
  "Codex produced no result.json (exit=" ++ toString exit ++ "). See " ++ codexLogPath

def exitDetail (code : Option ℤ) : String :=
  match code with
  | some v => "exit=" ++ toString v
  | none => "exit=signal"

def assemblyFailedNote (code : Option ℤ) (runId message stdoutPath stderrPath : String) :
    String :=
  "Assembly failed (" ++ exitDetail code ++ ") for run " ++ runId ++ ". " ++ message
    ++ " See stdout=" ++ stdoutPath ++ " stderr=" ++ stderrPath

def completedNote (runId : String) : String :=
  "Run " ++ runId ++ " completed"

def progressNote (runId outcome : String) (dod vok : Bool) (resultPath : String) : String :=
  "Run " ++ runId ++ " progress. reported_outcome=" ++ outcome
    ++ " dod_met=" ++ toString dod ++ " verify_ok=" ++ toString vok
    ++ ". See " ++ resultPath

/-- `handle_interrupt`: increment attempts, mark started with an interrupt
note, commit progress, return 130. -/
def handleInterruptModel (o : PipelineOracle) (root : Json) (tid : String)
    (runAttempt : ℕ) : Except String (ℕ × Json × List Event) :=
  match incrementAttemptCount root tid with
  | .error e => .error e
  | .ok (root1, _) =>
    match updateTaskStatus root1 tid "started" o.runId o.timestamp
        (interruptNote o.runId runAttempt) with
    | .error e => .error e
    | .ok root2 => .ok (130, root2, [Event.commitProgress])

/-- The `for attempt in 1..=3` codex loop: run codex, interrupt on exit 130 or
shutdown, break when `result.json` is non-empty, retry when the log shows a
rate-limit retry delay, otherwise break. -/
def codexLoop (o : PipelineOracle) (attempt : ℕ) : List Event × LoopResult :=
  if o.codexExit attempt = 130 ∨ o.shutdown (2 + attempt) = true then
    ([Event.spawnCodex], LoopResult.interrupted)
  else if o.resultNonEmpty attempt then
    ([Event.spawnCodex], LoopResult.done (o.codexExit attempt) true)
  else
    match o.retryDelay attempt with
    | some _ =>
      if h : attempt < 3 then
        (Event.spawnCodex :: (codexLoop o (attempt + 1)).1, (codexLoop o (attempt + 1)).2)
      else ([Event.spawnCodex], LoopResult.done (o.codexExit attempt) false)
    | none => ([Event.spawnCodex], LoopResult.done (o.codexExit attempt) false)
termination_by 3 - attempt
decreasing_by omega

/-- `dod_met` read from `result.json` (`as_bool`, default `false`). -/
def dodMetOf (result : Json) : Bool :=
  ((result.getKey "dod_met").bind Json.asBool).getD false

/-- `outcome` read from `result.json` (`as_str`, default `""`). -/
def outcomeOf (result : Json) : String :=
  ((result.getKey "outcome").bind Json.asStr).getD ""

/-- `verify.ok`: the verification result when `dod_met`, and the skipped
result (`ok = true`) otherwise. -/
def verifyOkOf (o : PipelineOracle) (result : Json) : Bool :=
  if dodMetOf result then o.verifyOk else true

/-- Verification spawns a process exactly when `dod_met` holds. -/
def verifyEvents (result : Json) : List Event :=
  if dodMetOf result then [Event.runVerify] else []

/-- Lines 487-599: run verification iff `dod_met`, then either the success
path (completed / commit / finalize / exit 0) or the progress path
(started / commit / exit 12). -/
def outcomePhase (o : PipelineOracle) (root : Json) (tid : String) (result : Json) :
    Except String (ℕ × Json × List Event) :=
  if dodMetOf result && verifyOkOf o result then
    match incrementAttemptCount root tid with
    | .error e => .error e
    | .ok (root1, _) =>
      match updateTaskStatus root1 tid "completed" o.runId o.timestamp
          (completedNote o.runId) with
      | .error e => .error e
      | .ok root2 =>
        .ok (0, root2, verifyEvents result ++ [Event.commitProgress, Event.finalizeBranch])
  else
    match incrementAttemptCount root tid with
    | .error e => .error e
    | .ok (root1, _) =>
      match updateTaskStatus root1 tid "started" o.runId o.timestamp
          (progressNote o.runId (outcomeOf result) (dodMetOf result)
            (verifyOkOf o result) o.resultPathStr) with
      | .error e => .error e
      | .ok root2 =>
        .ok (12, root2, verifyEvents result ++ [Event.commitProgress])

/-- Lines 249-599: the shutdown checks after the schema write and after the
rate-limit sleep, the codex loop, the missing-`result.json` path (exit 10),
the `result.json` parse, and the outcome phase. -/
def agentPhase (o : PipelineOracle) (root : Json) (tid : String) (runAttempt : ℕ) :
    Except String (ℕ × Json × List Event) :=
  if o.shutdown 1 = true then handleInterruptModel o root tid runAttempt
  else if o.shutdown 2 = true then handleInterruptModel o root tid runAttempt
  else
    match codexLoop o 1 with
    | (levs, LoopResult.interrupted) =>
      match handleInterruptModel o root tid runAttempt with
      | .error e => .error e
      | .ok (c, r, evs) => .ok (c, r, levs ++ evs)
    | (levs, LoopResult.done exit found) =>
      if found then
        match o.resultJson with
        | none => .error "Failed to parse result.json"
        | some result =>
          match outcomePhase o root tid result with
          | .error e => .error e
          | .ok (c, r, evs) => .ok (c, r, levs ++ evs)
      else
        match incrementAttemptCount root tid with
        | .error e => .error e
        | .ok (root1, _) =>
          match updateTaskStatus root1 tid "blocked" o.runId o.timestamp
              (missingResultNote exit o.codexLogPathStr) with
          | .error e => .error e
          | .ok root2 => .ok (10, root2, levs ++ [Event.commitProgress])

/-- Lines 142-247: when context compilation is enabled, the pre-assembly
shutdown check and the assembly outcome handling (required-policy failures
block with exit 13, best-effort failures continue). -/
def contextPhase (cfg : PipeConfig) (o : PipelineOracle) (root : Json) (tid : String)
    (runAttempt : ℕ) : Except String (ℕ × Json × List Event) :=
  if cfg.contextEnabled then
    if o.shutdown 0 = true then handleInterruptModel o root tid runAttempt
    else
      match o.assembly with
      | AssemblyOutcome.success =>
        match agentPhase o root tid runAttempt with
        | .error e => .error e
        | .ok (c, r, evs) => .ok (c, r, Event.spawnAssembly :: evs)
      | AssemblyOutcome.interrupted =>
        match handleInterruptModel o root tid runAttempt with
        | .error e => .error e
        | .ok (c, r, evs) => .ok (c, r, Event.spawnAssembly :: evs)
      | AssemblyOutcome.failed code msg =>
        if cfg.contextRequired then
          match incrementAttemptCount root tid with
          | .error e => .error e
          | .ok (root1, _) =>
            match updateTaskStatus root1 tid "blocked" o.runId o.timestamp
                (assemblyFailedNote code o.runId msg o.assemblyStdoutStr
                  o.assemblyStderrStr) with
            | .error e => .error e
            | .ok root2 => .ok (13, root2, [Event.spawnAssembly, Event.commitProgress])
        else
          match agentPhase o root tid runAttempt with
          | .error e => .error e
          | .ok (c, r, evs) => .ok (c, r, Event.spawnAssembly :: evs)
  else agentPhase o root tid runAttempt

/-- `run_task_agent`: argument guards, codex availability, task selection,
metadata validation, model support, the optional reset, the attempt-limit
gate (exit 11), and the context/agent phases. -/
def runTaskAgentModel (cfg : PipeConfig) (o : PipelineOracle) (root : Json)
    (requested : Option String) (allowNext : Bool) :
    Except String (ℕ × Json × List Event) :=
  if requested = none ∧ allowNext = false then
    .error "Task agent requires --task-id or --next"
  else if o.codexAvailable = false then
    .error "Missing dependency: codex"
  else
    match selectTaskRoot root requested allowNext with
    | .error code => .ok (code, root, [])
    | .ok sel =>
      if missingMetadata sel.raw ≠ [] then .ok (2, root, [])
      else if modelSupported sel.model = false then .ok (2, root, [])
      else
        match (if cfg.resetTask then
            resetTaskAttempts root sel.taskId o.runId o.timestamp
              "Reset attempts via --reset-task"
          else .ok root) with
        | .error e => .error e
        | .ok root0 =>
          match currentAttemptCount root0 sel.taskId with
          | .error e => .error e
          | .ok attempts =>
            if 3 ≤ attempts then
              match updateTaskStatus root0 sel.taskId "blocked" o.runId o.timestamp
                  (attemptLimitNote attempts) with
              | .error e => .error e
              | .ok root1 => .ok (11, root1, [Event.commitProgress])
            else contextPhase cfg o root0 sel.taskId (attempts + 1)

theorem select_error_codes (root : Json) (requested : Option String) (allowNext : Bool)
    (c : ℕ) (h : selectTaskRoot root requested allowNext = .error c) :
    c ∈ ([2, 3, 4, 6] : List ℕ) := by
  unfold selectTaskRoot at h
  split at h
  · cases h; decide
  · split at h
    · cases h; decide
    · split at h
      · split at h
        · cases h; decide
        · split at h
          · cases h; decide
          · split at h
            · split at h
              · cases h; decide
              · exact absurd h (by simp)
            · split at h
              · cases h; decide
              · exact absurd h (by simp)
      · cases h; decide

theorem okTriple_inj {c1 c : ℕ} {r1 r : Json} {e1 e : List Event}
    (h : (Except.ok (c1, r1, e1) : Except String (ℕ × Json × List Event))
      = .ok (c, r, e)) :
    c1 = c ∧ r1 = r ∧ e1 = e := by
  simp only [Except.ok.injEq, Prod.mk.injEq] at h
  exact h

theorem handleInterrupt_spec (o : PipelineOracle) (root : Json) (tid : String)
    (ra c : ℕ) (r : Json) (evs : List Event)
    (h : handleInterruptModel o root tid ra = .ok (c, r, evs))
    (hsmall : attemptsView root tid + 1 < 2 ^ 64) :
    c = 130 ∧ attemptsView r tid = attemptsView root tid + 1
      ∧ ∀ tid', tid' ≠ tid → attemptsView r tid' = attemptsView root tid' := by
  unfold handleInterruptModel at h
  split at h
  · exact absurd h (by simp)
  · rename_i root1 n hinc
    split at h
    · exact absurd h (by simp)
    · rename_i root2 hupd
      obtain ⟨hc, hr, -⟩ := okTriple_inj h
      obtain ⟨-, hinc2, hinc3⟩ := incrementAttemptCount_spec root tid root1 n hinc hsmall
      obtain ⟨hupd1, -, -⟩ := updateTaskStatus_spec root1 tid _ _ _ _ root2 hupd
      refine ⟨hc.symm, ?_, ?_⟩
      · rw [← hr, hupd1, hinc2]
      · intro tid' hne
        rw [← hr, hupd1, hinc3 tid' hne]

theorem outcomePhase_spec (o : PipelineOracle) (root : Json) (tid : String)
    (result : Json) (c : ℕ) (r : Json) (evs : List Event)
    (h : outcomePhase o root tid result = .ok (c, r, evs))
    (hsmall : attemptsView root tid + 1 < 2 ^ 64) :
    (c = 0 ∨ c = 12) ∧ attemptsView r tid = attemptsView root tid + 1
      ∧ ∀ tid', tid' ≠ tid → attemptsView r tid' = attemptsView root tid' := by
  unfold outcomePhase at h
  split at h
  · split at h
    · exact absurd h (by simp)
    · rename_i root1 n hinc
      split at h
      · exact absurd h (by simp)
      · rename_i root2 hupd
        obtain ⟨hc, hr, -⟩ := okTriple_inj h
        obtain ⟨-, hinc2, hinc3⟩ := incrementAttemptCount_spec root tid root1 n hinc hsmall
        obtain ⟨hupd1, -, -⟩ := updateTaskStatus_spec root1 tid _ _ _ _ root2 hupd
        refine ⟨Or.inl hc.symm, ?_, ?_⟩
        · rw [← hr, hupd1, hinc2]
        · intro tid' hne
          rw [← hr, hupd1, hinc3 tid' hne]
  · split at h
    · exact absurd h (by simp)
    · rename_i root1 n hinc
      split at h
      · exact absurd h (by simp)
      · rename_i root2 hupd
        obtain ⟨hc, hr, -⟩ := okTriple_inj h
        obtain ⟨-, hinc2, hinc3⟩ := incrementAttemptCount_spec root tid root1 n hinc hsmall
        obtain ⟨hupd1, -, -⟩ := updateTaskStatus_spec root1 tid _ _ _ _ root2 hupd
        refine ⟨Or.inr hc.symm, ?_, ?_⟩
        · rw [← hr, hupd1, hinc2]
        · intro tid' hne
          rw [← hr, hupd1, hinc3 tid' hne]

theorem agentPhase_spec (o : PipelineOracle) (root : Json) (tid : String)
    (ra c : ℕ) (r : Json) (evs : List Event)
    (h : agentPhase o root tid ra = .ok (c, r, evs))
    (hsmall : attemptsView root tid + 1 < 2 ^ 64) :
    c ∈ ([130, 10, 0, 12] : List ℕ)
      ∧ attemptsView r tid = attemptsView root tid + 1
      ∧ ∀ tid', tid' ≠ tid → attemptsView r tid' = attemptsView root tid' := by
  unfold agentPhase at h
  split at h
  · obtain ⟨hc, h2, h3⟩ := handleInterrupt_spec o root tid ra c r evs h hsmall
    exact ⟨by rw [hc]; decide, h2, h3⟩
  · split at h
    · obtain ⟨hc, h2, h3⟩ := handleInterrupt_spec o root tid ra c r evs h hsmall
      exact ⟨by rw [hc]; decide, h2, h3⟩
    · split at h
      · rename_i levs hloop
        split at h
        · exact absurd h (by simp)
        · rename_i c1 r1 evs1 hint
          obtain ⟨hc, hr, -⟩ := okTriple_inj h
          obtain ⟨hc130, h2, h3⟩ :=
            handleInterrupt_spec o root tid ra c1 r1 evs1 hint hsmall
          refine ⟨by rw [← hc, hc130]; decide, ?_, ?_⟩
          · rw [← hr]; exact h2
          · intro tid' hne; rw [← hr]; exact h3 tid' hne
      · rename_i levs exit found hloop
        split at h
        · split at h
          · exact absurd h (by simp)
          · rename_i result hres
            split at h
            · exact absurd h (by simp)
            · rename_i c1 r1 evs1 hout
              obtain ⟨hc, hr, -⟩ := okTriple_inj h
              obtain ⟨hc1, h2, h3⟩ :=
                outcomePhase_spec o root tid result c1 r1 evs1 hout hsmall
              refine ⟨?_, ?_, ?_⟩
              · rcases hc1 with hc1 | hc1 <;> rw [← hc, hc1] <;> decide
              · rw [← hr]; exact h2
              · intro tid' hne; rw [← hr]; exact h3 tid' hne
        · split at h
          · exact absurd h (by simp)
          · rename_i root1 n hinc
            split at h
            · exact absurd h (by simp)
            · rename_i root2 hupd
              obtain ⟨hc, hr, -⟩ := okTriple_inj h
              obtain ⟨-, hinc2, hinc3⟩ :=
                incrementAttemptCount_spec root tid root1 n hinc hsmall
              obtain ⟨hupd1, -, -⟩ := updateTaskStatus_spec root1 tid _ _ _ _ root2 hupd
              refine ⟨by rw [← hc]; decide, ?_, ?_⟩
              · rw [← hr, hupd1, hinc2]
              · intro tid' hne
                rw [← hr, hupd1, hinc3 tid' hne]

theorem memCodes_weaken (c : ℕ) (hc : c ∈ ([130, 10, 0, 12] : List ℕ)) :
    c ∈ ([130, 13, 10, 0, 12] : List ℕ) := by
  simp only [List.mem_cons, List.not_mem_nil, or_false] at hc ⊢
  tauto

theorem contextPhase_spec (cfg : PipeConfig) (o : PipelineOracle) (root : Json)
    (tid : String) (ra c : ℕ) (r : Json) (evs : List Event)
    (h : contextPhase cfg o root tid ra = .ok (c, r, evs))
    (hsmall : attemptsView root tid + 1 < 2 ^ 64) :
    c ∈ ([130, 13, 10, 0, 12] : List ℕ)
      ∧ attemptsView r tid = attemptsView root tid + 1
      ∧ ∀ tid', tid' ≠ tid → attemptsView r tid' = attemptsView root tid' := by
  unfold contextPhase at h
  split at h
  · split at h
    · obtain ⟨hc, h2, h3⟩ := handleInterrupt_spec o root tid ra c r evs h hsmall
      exact ⟨by rw [hc]; decide, h2, h3⟩
    · split at h
      · split at h
        · exact absurd h (by simp)
        · rename_i c1 r1 evs1 hag
          obtain ⟨hc, hr, -⟩ := okTriple_inj h
          obtain ⟨hc1, h2, h3⟩ := agentPhase_spec o root tid ra c1 r1 evs1 hag hsmall
          refine ⟨by rw [← hc]; exact memCodes_weaken c1 hc1, ?_, ?_⟩
          · rw [← hr]; exact h2
          · intro tid' hne; rw [← hr]; exact h3 tid' hne
      · split at h
        · exact absurd h (by simp)
        · rename_i c1 r1 evs1 hint
          obtain ⟨hc, hr, -⟩ := okTriple_inj h
          obtain ⟨hc130, h2, h3⟩ :=
            handleInterrupt_spec o root tid ra c1 r1 evs1 hint hsmall
          refine ⟨by rw [← hc, hc130]; decide, ?_, ?_⟩
          · rw [← hr]; exact h2
          · intro tid' hne; rw [← hr]; exact h3 tid' hne
      · split at h
        · split at h
          · exact absurd h (by simp)
          · rename_i root1 n hinc
            split at h
            · exact absurd h (by simp)
            · rename_i root2 hupd
              obtain ⟨hc, hr, -⟩ := okTriple_inj h
              obtain ⟨-, hinc2, hinc3⟩ :=
                incrementAttemptCount_spec root tid root1 n hinc hsmall
              obtain ⟨hupd1, -, -⟩ := updateTaskStatus_spec root1 tid _ _ _ _ root2 hupd
              refine ⟨by rw [← hc]; decide, ?_, ?_⟩
              · rw [← hr, hupd1, hinc2]
              · intro tid' hne
                rw [← hr, hupd1, hinc3 tid' hne]
        · split at h
          · exact absurd h (by simp)
          · rename_i c1 r1 evs1 hag
            obtain ⟨hc, hr, -⟩ := okTriple_inj h
            obtain ⟨hc1, h2, h3⟩ := agentPhase_spec o root tid ra c1 r1 evs1 hag hsmall
            refine ⟨by rw [← hc]; exact memCodes_weaken c1 hc1, ?_, ?_⟩
            · rw [← hr]; exact h2
            · intro tid' hne; rw [← hr]; exact h3 tid' hne
  · obtain ⟨hc1, h2, h3⟩ := agentPhase_spec o root tid ra c r evs h hsmall
    exact ⟨memCodes_weaken c hc1, h2, h3⟩

theorem strAppend_ne_empty (s t : String) (h : s ≠ "") : s ++ t ≠ "" := by
  intro he
  apply h
  have hd : (s ++ t).data = [] := by rw [he]
  rw [String.data_append] at hd
  have hs : s.data = [] := by
    cases hc : s.data with
    | nil => rfl
    | cons a l => rw [hc] at hd; simp at hd
  cases s with
  | mk d => cases hs; rfl

theorem attemptLimitNote_ne_empty (attempts : ℕ) : attemptLimitNote attempts ≠ "" := by
  unfold attemptLimitNote
  rw [String.append_assoc]
  exact strAppend_ne_empty _ _ (by decide)

theorem run_dichotomy (cfg : PipeConfig) (o : PipelineOracle) (root : Json)
    (requested : Option String) (allowNext : Bool) (code : ℕ) (root' : Json)
    (evs : List Event) (hreset : cfg.resetTask = false)
    (hrun : runTaskAgentModel cfg o root requested allowNext = .ok (code, root', evs)) :
    (code ∈ ([2, 3, 4, 6, 11] : List ℕ)
      ∧ ∀ tid, attemptsView root' tid = attemptsView root tid)
    ∨ (code ∈ ([130, 13, 10, 0, 12] : List ℕ)
      ∧ ∃ sel, selectTaskRoot root requested allowNext = .ok sel
        ∧ attemptsView root' sel.taskId = attemptsView root sel.taskId + 1
        ∧ ∀ tid, tid ≠ sel.taskId → attemptsView root' tid = attemptsView root tid) := by
  unfold runTaskAgentModel at hrun
  split at hrun
  · exact absurd hrun (by simp)
  · split at hrun
    · exact absurd hrun (by simp)
    · split at hrun
      · rename_i code1 hsel
        obtain ⟨hc, hr, -⟩ := okTriple_inj hrun
        left
        constructor
        · have hmem := select_error_codes root requested allowNext code1 hsel
          rw [← hc]
          simp only [List.mem_cons, List.not_mem_nil, or_false] at hmem ⊢
          tauto
        · intro tid; rw [← hr]
      · rename_i sel hsel
        split at hrun
        · obtain ⟨hc, hr, -⟩ := okTriple_inj hrun
          left
          exact ⟨by rw [← hc]; decide, fun tid => by rw [← hr]⟩
        · split at hrun
          · obtain ⟨hc, hr, -⟩ := okTriple_inj hrun
            left
            exact ⟨by rw [← hc]; decide, fun tid => by rw [← hr]⟩
          · simp only [hreset, Bool.false_eq_true, if_false] at hrun
            split at hrun
            · exact absurd hrun (by simp)
            · rename_i attempts hcur
              obtain ⟨hA, -, -, -, -⟩ := currentAttemptCount_spec root sel.taskId attempts hcur
              split at hrun
              · rename_i hlim
                split at hrun
                · exact absurd hrun (by simp)
                · rename_i root1 hupd
                  obtain ⟨hc, hr, -⟩ := okTriple_inj hrun
                  obtain ⟨hupd1, -, -⟩ :=
                    updateTaskStatus_spec root sel.taskId _ _ _ _ root1 hupd
                  left
                  refine ⟨by rw [← hc]; decide, fun tid => by rw [← hr]; exact hupd1 tid⟩
              · rename_i hlim
                have hsmall : attemptsView root sel.taskId + 1 < 2 ^ 64 := by
                  rw [← hA]; omega
                obtain ⟨-, h2, h3⟩ :=
                  contextPhase_spec cfg o root sel.taskId (attempts + 1) code root' evs
                    hrun hsmall
                right
                refine ⟨?_, sel, hsel, h2, h3⟩
                obtain ⟨hcmem, -, -⟩ :=
                  contextPhase_spec cfg o root sel.taskId (attempts + 1) code root' evs
                    hrun hsmall
                exact hcmem

/-- C5: when the selected task passes metadata and model checks but its
`run_attempts` counter is already at least 3 and no reset was requested, the
pipeline marks it `blocked` with the attempt-limit note, commits progress,
returns exit code 11, leaves every attempt counter unchanged, and never
spawns the codex agent. -/
theorem attempt_limit_blocks_without_codex (cfg : PipeConfig) (o : PipelineOracle)
    (root : Json) (requested : Option String) (allowNext : Bool) (sel : Selection)
    (attempts : ℕ)
    (hreset : cfg.resetTask = false)
    (hargs : ¬(requested = none ∧ allowNext = false))
    (hcodex : o.codexAvailable = true)
    (hsel : selectTaskRoot root requested allowNext = .ok sel)
    (hmeta : missingMetadata sel.raw = [])
    (hmodel : modelSupported sel.model = true)
    (hcur : currentAttemptCount root sel.taskId = .ok attempts)
    (hlim : 3 ≤ attempts) :
    ∃ root', runTaskAgentModel cfg o root requested allowNext
        = .ok (11, root', [Event.commitProgress])
      ∧ statusView root' sel.taskId = some "blocked"
      ∧ noteView root' sel.taskId = some (attemptLimitNote attempts)
      ∧ (∀ tid, attemptsView root' tid = attemptsView root tid)
      ∧ Event.spawnCodex ∉ [Event.commitProgress] := by
  obtain ⟨hA, ts, i, harr, hidx⟩ := currentAttemptCount_spec root sel.taskId attempts hcur
  obtain ⟨root1, hupd⟩ := updateTaskStatus_ok root sel.taskId "blocked" o.runId
    o.timestamp (attemptLimitNote attempts) ts i harr hidx
  obtain ⟨hupd1, hupd2, hupd3⟩ :=
    updateTaskStatus_spec root sel.taskId _ _ _ _ root1 hupd
  refine ⟨root1, ?_, hupd2, hupd3 (attemptLimitNote_ne_empty attempts), hupd1, by decide⟩
  unfold runTaskAgentModel
  rw [if_neg hargs]
  rw [if_neg (by rw [hcodex]; simp)]
  simp only [hsel]
  rw [if_neg (by rw [hmeta]; simp)]
  rw [if_neg (by rw [hmodel]; simp)]
  simp only [hreset, Bool.false_eq_true, if_false]
  simp only [hcur]
  rw [if_pos hlim]
  simp only [hupd]

/-- C7 (amended): without an explicit reset, every successful pipeline run
leaves each task's `run_attempts` at least as large as before; the counters
are all unchanged exactly when the exit code is one of 2, 3, 4, 6 or 11
(load/metadata/model rejections, no runnable task, invalid or mismatched id,
human model, and the attempt limit), and on every other exit code the
selected task's counter grows by exactly one while all others are
unchanged. -/
theorem run_attempts_monotone (cfg : PipeConfig) (o : PipelineOracle) (root : Json)
    (requested : Option String) (allowNext : Bool) (code : ℕ) (root' : Json)
    (evs : List Event) (hreset : cfg.resetTask = false)
    (hrun : runTaskAgentModel cfg o root requested allowNext = .ok (code, root', evs)) :
    (∀ tid, attemptsView root tid ≤ attemptsView root' tid)
    ∧ (code ∈ ([2, 3, 4, 6, 11] : List ℕ)
        → ∀ tid, attemptsView root' tid = attemptsView root tid)
    ∧ (code ∉ ([2, 3, 4, 6, 11] : List ℕ)
        → ∃ sel, selectTaskRoot root requested allowNext = .ok sel
          ∧ attemptsView root' sel.taskId = attemptsView root sel.taskId + 1
          ∧ ∀ tid, tid ≠ sel.taskId → attemptsView root' tid = attemptsView root tid) := by
  rcases run_dichotomy cfg o root requested allowNext code root' evs hreset hrun with
    ⟨hmem, hall⟩ | ⟨hmem, sel, hsel, hplus, hrest⟩
  · exact ⟨fun tid => (hall tid).ge, fun _ => hall, fun hn => absurd hmem hn⟩
  · have hdisj : code ∉ ([2, 3, 4, 6, 11] : List ℕ) := by
      simp only [List.mem_cons, List.not_mem_nil, or_false] at hmem
      rcases hmem with h | h | h | h | h <;> subst h <;> decide
    refine ⟨?_, fun hm => absurd hm hdisj, fun _ => ⟨sel, hsel, hplus, hrest⟩⟩
    intro tid
    by_cases htid : tid = sel.taskId
    · subst htid
      rw [hplus]
      exact Nat.le_succ _
    · rw [hrest tid htid]

theorem increment_found (root : Json) (tid : String) (root' : Json) (n : ℕ)
    (h : incrementAttemptCount root tid = .ok (root', n))
    (tid' : String) (ts : List Json) (j : ℕ)
    (harr : tasksArray root = some ts) (hidx : firstIdxWith tid' ts = some j) :
    ∃ ts', tasksArray root' = some ts' ∧ firstIdxWith tid' ts' = some j := by
  unfold incrementAttemptCount at h
  split at h
  · exact absurd h (by simp)
  · rename_i current hcur
    cases hm : modifyFirstTask root tid (fun fields =>
        obsUpdate fields fun obs =>
          setField obs "run_attempts" (Json.num ((current + 1 : ℕ) : ℚ))) with
    | error e => rw [hm] at h; exact absurd h (by simp [Except.map])
    | ok r2 =>
      rw [hm] at h
      simp only [Except.map, Except.ok.injEq, Prod.mk.injEq] at h
      obtain ⟨hr, -⟩ := h
      obtain ⟨ts', h1, h2⟩ := found_after_modify root tid _ r2 hm
        (fun fields => taskIdOf_obsOnly fields _) tid' ts j harr hidx
      exact ⟨ts', by rw [← hr]; exact h1, h2⟩

theorem increment_then_update_ok (root : Json) (tid : String) (ts : List Json) (i : ℕ)
    (harr : tasksArray root = some ts) (hidx : firstIdxWith tid ts = some i)
    (st rid tss note : String) (hsmall : attemptsView root tid + 1 < 2 ^ 64) :
    ∃ root1 root2,
      incrementAttemptCount root tid = .ok (root1, attemptsView root tid + 1)
      ∧ updateTaskStatus root1 tid st rid tss note = .ok root2
      ∧ attemptsView root2 tid = attemptsView root tid + 1
      ∧ (∀ tid', tid' ≠ tid → attemptsView root2 tid' = attemptsView root tid')
      ∧ statusView root2 tid = some st
      ∧ (note ≠ "" → noteView root2 tid = some note) := by
  obtain ⟨root1, n, hinc⟩ := incrementAttemptCount_ok root tid ts i harr hidx
  obtain ⟨hn, hinc2, hinc3⟩ := incrementAttemptCount_spec root tid root1 n hinc hsmall
  obtain ⟨ts', harr', hidx'⟩ := increment_found root tid root1 n hinc tid ts i harr hidx
  obtain ⟨root2, hupd⟩ := updateTaskStatus_ok root1 tid st rid tss note ts' i harr' hidx'
  obtain ⟨hupd1, hupd2, hupd3⟩ := updateTaskStatus_spec root1 tid _ _ _ _ root2 hupd
  subst hn
  refine ⟨root1, root2, hinc, hupd, ?_, ?_, hupd2, hupd3⟩
  · rw [hupd1, hinc2]
  · intro tid' hne
    rw [hupd1, hinc3 tid' hne]

/-- C6: once the codex loop ends with a non-empty `result.json` that parses,
verification runs exactly when `dod_met` is true (it is skipped with `ok =
true` otherwise), success is `dod_met && verify.ok`, and the pipeline either
completes the task with exit code 0 (status `completed`, commit, branch
finalization) or records progress with exit code 12 (status `started`,
commit); either way the selected task's attempt counter grows by one. -/
theorem outcome_phase_success_criterion (cfg : PipeConfig) (o : PipelineOracle)
    (root : Json) (requested : Option String) (allowNext : Bool) (sel : Selection)
    (attempts : ℕ) (levs : List Event) (exit : ℤ) (result : Json)
    (hreset : cfg.resetTask = false)
    (hargs : ¬(requested = none ∧ allowNext = false))
    (hcodex : o.codexAvailable = true)
    (hsel : selectTaskRoot root requested allowNext = .ok sel)
    (hmeta : missingMetadata sel.raw = [])
    (hmodel : modelSupported sel.model = true)
    (hcur : currentAttemptCount root sel.taskId = .ok attempts)
    (hlt : attempts < 3)
    (hctx : cfg.contextEnabled = false)
    (hsd1 : o.shutdown 1 = false)
    (hsd2 : o.shutdown 2 = false)
    (hloop : codexLoop o 1 = (levs, LoopResult.done exit true))
    (hres : o.resultJson = some result) :
    ∃ root',
      runTaskAgentModel cfg o root requested allowNext
        = .ok ((if dodMetOf result && verifyOkOf o result then 0 else 12), root',
            levs ++ (verifyEvents result
              ++ (if dodMetOf result && verifyOkOf o result then
                  [Event.commitProgress, Event.finalizeBranch]
                else [Event.commitProgress])))
      ∧ statusView root' sel.taskId
          = some (if dodMetOf result && verifyOkOf o result then "completed" else "started")
      ∧ attemptsView root' sel.taskId = attemptsView root sel.taskId + 1
      ∧ (dodMetOf result && verifyOkOf o result) = (dodMetOf result && o.verifyOk)
      ∧ (Event.runVerify ∈ verifyEvents result ↔ dodMetOf result = true)
      ∧ (dodMetOf result = false → verifyOkOf o result = true) := by
  obtain ⟨hA, ts, i, harr, hidx⟩ := currentAttemptCount_spec root sel.taskId attempts hcur
  have hsmall : attemptsView root sel.taskId + 1 < 2 ^ 64 := by rw [← hA]; omega
  have hbe : (dodMetOf result && verifyOkOf o result) = (dodMetOf result && o.verifyOk) := by
    cases hd : dodMetOf result <;> simp [verifyOkOf, hd]
  have hiff : Event.runVerify ∈ verifyEvents result ↔ dodMetOf result = true := by
    unfold verifyEvents
    cases hd : dodMetOf result <;> simp
  have himp : dodMetOf result = false → verifyOkOf o result = true := by
    intro hd; simp [verifyOkOf, hd]
  have hpipe : runTaskAgentModel cfg o root requested allowNext
      = match outcomePhase o root sel.taskId result with
        | .error e => .error e
        | .ok (c, r, evs2) => .ok (c, r, levs ++ evs2) := by
    unfold runTaskAgentModel
    rw [if_neg hargs]
    rw [if_neg (by rw [hcodex]; simp)]
    simp only [hsel]
    rw [if_neg (by rw [hmeta]; simp)]
    rw [if_neg (by rw [hmodel]; simp)]
    simp only [hreset, Bool.false_eq_true, if_false]
    simp only [hcur]
    rw [if_neg (by omega)]
    unfold contextPhase
    simp only [hctx, Bool.false_eq_true, if_false]
    unfold agentPhase
    rw [if_neg (by rw [hsd1]; simp)]
    rw [if_neg (by rw [hsd2]; simp)]
    simp only [hloop]
    rw [if_pos trivial]
    simp only [hres]
  rcases Bool.eq_false_or_eq_true (dodMetOf result && verifyOkOf o result) with hdv | hdv
  · obtain ⟨root1, root2, hinc, hupd, h2, -, hst, -⟩ :=
      increment_then_update_ok root sel.taskId ts i harr hidx "completed" o.runId
        o.timestamp (completedNote o.runId) hsmall
    have houtcome : outcomePhase o root sel.taskId result
        = .ok (0, root2, verifyEvents result
            ++ [Event.commitProgress, Event.finalizeBranch]) := by
      unfold outcomePhase
      rw [if_pos hdv]
      simp only [hinc, hupd]
    refine ⟨root2, ?_, ?_, h2, hbe, hiff, himp⟩
    · rw [hpipe, houtcome]
      simp [hdv]
    · rw [if_pos hdv]
      exact hst
  · obtain ⟨root1, root2, hinc, hupd, h2, -, hst, -⟩ :=
      increment_then_update_ok root sel.taskId ts i harr hidx "started" o.runId
        o.timestamp (progressNote o.runId (outcomeOf result) (dodMetOf result)
          (verifyOkOf o result) o.resultPathStr) hsmall
    have houtcome : outcomePhase o root sel.taskId result
        = .ok (12, root2, verifyEvents result ++ [Event.commitProgress]) := by
      unfold outcomePhase
      rw [if_neg (by rw [hdv]; simp)]
      simp only [hinc, hupd]
    refine ⟨root2, ?_, ?_, h2, hbe, hiff, himp⟩
    · rw [hpipe, houtcome]
      simp [hdv]
    · rw [if_neg (by rw [hdv]; simp)]
      exact hst

/-! ### Concrete pipeline fixtures -/

def pipeCfgA : PipeConfig := ⟨false, false, false⟩

def taskA : Json := Json.obj
  [("task_id", Json.str "t1"),
   ("title", Json.str "Fix the widget"),
   ("model", Json.str "gpt-5.2-codex"),
   ("definition_of_done", Json.arr [Json.str "done"]),
   ("recommended", Json.obj [("approach", Json.str "direct")]),
   ("observability", Json.obj [("run_attempts", Json.num 3)])]

def rootA : Json := Json.obj [("tasks", Json.arr [taskA])]

def oracleA : PipelineOracle :=
  ⟨true, fun _ => false, AssemblyOutcome.success, fun _ => 0, fun _ => true,
   fun _ => none, none, true, "run-1", "2026-01-01T00:00:00Z",
   "runs/t1/run-1/result.json", "runs/t1/run-1/codex.log",
   "assembly.out", "assembly.err"⟩

def taskB : Json := Json.obj
  [("task_id", Json.str "t1"),
   ("title", Json.str "Fix the widget"),
   ("model", Json.str "gpt-5.2-codex"),
   ("definition_of_done", Json.arr [Json.str "done"]),
   ("recommended", Json.obj [("approach", Json.str "direct")])]

def rootB : Json := Json.obj [("tasks", Json.arr [taskB])]

def resultB : Json := Json.obj
  [("outcome", Json.str "success"), ("dod_met", Json.bool true)]

def oracleB : PipelineOracle :=
  ⟨true, fun _ => false, AssemblyOutcome.success, fun _ => 0, fun _ => true,
   fun _ => none, some resultB, true, "run-1", "2026-01-01T00:00:00Z",
   "runs/t1/run-1/result.json", "runs/t1/run-1/codex.log",
   "assembly.out", "assembly.err"⟩

/-- The tasks file after the attempt-limit run on `rootA`. -/
def rootA11 : Json := Json.obj [("tasks", Json.arr [Json.obj
  [("task_id", Json.str "t1"),
   ("title", Json.str "Fix the widget"),
   ("model", Json.str "gpt-5.2-codex"),
   ("definition_of_done", Json.arr [Json.str "done"]),
   ("recommended", Json.obj [("approach", Json.str "direct")]),
   ("observability", Json.obj
     [("run_attempts", Json.num 3),
      ("last_run_id", Json.str "run-1"),
      ("last_update_utc", Json.str "2026-01-01T00:00:00Z"),
      ("last_note", Json.str
        "Attempt limit reached (3/3). Use --reset-task after human intervention.")]),
   ("status", Json.str "blocked")]])]

/-- Witness for C5: a concrete task with `run_attempts = 3` is blocked with
exit code 11 and no codex spawn. -/
theorem attempt_limit_blocks_without_codex_witness :
    ∃ root', runTaskAgentModel pipeCfgA oracleA rootA none true
        = .ok (11, root', [Event.commitProgress])
      ∧ statusView root' "t1" = some "blocked"
      ∧ noteView root' "t1" = some (attemptLimitNote 3)
      ∧ (∀ tid, attemptsView root' tid = attemptsView rootA tid)
      ∧ Event.spawnCodex ∉ [Event.commitProgress] :=
  attempt_limit_blocks_without_codex pipeCfgA oracleA rootA none true
    (mkSelection "t1" taskA) 3 rfl (by decide) rfl rfl rfl rfl rfl (by decide)

/-- C7 counterexample: an attempt-limit run is not one of the early rejection
paths named by the claim (the task is runnable, non-human, supported, with
valid metadata, and selection succeeds), yet its exit code 11 leaves
`run_attempts` unchanged, so equality does not hold only on the early
rejection paths. -/
theorem run_attempts_equal_on_attempt_limit :
    runTaskAgentModel pipeCfgA oracleA rootA none true
        = .ok (11, rootA11, [Event.commitProgress])
      ∧ attemptsView rootA11 "t1" = attemptsView rootA "t1"
      ∧ selectTaskRoot rootA none true = .ok (mkSelection "t1" taskA)
      ∧ modelOf taskA ≠ "human"
      ∧ modelSupported (modelOf taskA) = true
      ∧ missingMetadata taskA = [] :=
  ⟨rfl, rfl, rfl, by decide, rfl, rfl⟩

/-- Witness for C7 at the concrete attempt-limit run. -/
theorem run_attempts_monotone_witness :
    (∀ tid, attemptsView rootA tid ≤ attemptsView rootA11 tid)
    ∧ ((11 : ℕ) ∈ ([2, 3, 4, 6, 11] : List ℕ)
        → ∀ tid, attemptsView rootA11 tid = attemptsView rootA tid)
    ∧ ((11 : ℕ) ∉ ([2, 3, 4, 6, 11] : List ℕ)
        → ∃ sel, selectTaskRoot rootA none true = .ok sel
          ∧ attemptsView rootA11 sel.taskId = attemptsView rootA sel.taskId + 1
          ∧ ∀ tid, tid ≠ sel.taskId → attemptsView rootA11 tid = attemptsView rootA tid) :=
  run_attempts_monotone pipeCfgA oracleA rootA none true 11 rootA11
    [Event.commitProgress] rfl rfl

/-- Witness for C6: a concrete run whose `result.json` reports `dod_met` and
whose verification succeeds completes with exit code 0. -/
theorem outcome_phase_success_criterion_witness :
    ∃ root',
      runTaskAgentModel pipeCfgA oracleB rootB none true
        = .ok ((if dodMetOf resultB && verifyOkOf oracleB resultB then 0 else 12), root',
            [Event.spawnCodex] ++ (verifyEvents resultB
              ++ (if dodMetOf resultB && verifyOkOf oracleB resultB then
                  [Event.commitProgress, Event.finalizeBranch]
                else [Event.commitProgress])))
      ∧ statusView root' "t1"
          = some (if dodMetOf resultB && verifyOkOf oracleB resultB then
              "completed" else "started")
      ∧ attemptsView root' "t1" = attemptsView rootB "t1" + 1
      ∧ (dodMetOf resultB && verifyOkOf oracleB resultB)
          = (dodMetOf resultB && oracleB.verifyOk)
      ∧ (Event.runVerify ∈ verifyEvents resultB ↔ dodMetOf resultB = true)
      ∧ (dodMetOf resultB = false → verifyOkOf oracleB resultB = true) :=
  outcome_phase_success_criterion pipeCfgA oracleB rootB none true
    (mkSelection "t1" taskB) 0 [Event.spawnCodex] 0 resultB
    rfl (by decide) rfl rfl rfl rfl rfl (by decide) rfl rfl rfl
    (by unfold codexLoop; decide) rfl

/-! ### Usage parsing (`parse_usage_tokens` in `src/task_agent.rs`)

The JSONL log is modelled as the list of JSON values of its parseable lines
(lines that do not start with `{` or fail to parse are skipped by the source
before any of the logic below runs). -/

def optOr (a b : Option Json) : Option Json :=
  match a with
  | some v => some v
  | none => b

/-- `input_tokens` (alias `prompt_tokens`) as `as_i64`, default 0. -/
def recordInput (usage : Json) : ℤ :=
  ((optOr (usage.getKey "input_tokens") (usage.getKey "prompt_tokens")).bind
    Json.asI64).getD 0

/-- `output_tokens` (alias `completion_tokens`) as `as_i64`, default 0. -/
def recordOutput (usage : Json) : ℤ :=
  ((optOr (usage.getKey "output_tokens") (usage.getKey "completion_tokens")).bind
    Json.asI64).getD 0

/-- Total tokens of one `usage` object: `total_tokens` if present (as i64),
else input + output. -/
def recordTotal (usage : Json) : ℤ :=
  ((usage.getKey "total_tokens").bind Json.asI64).getD
    (recordInput usage + recordOutput usage)

def isTurnCompleted (payload : Json) : Bool :=
  ((payload.getKey "type").bind Json.asStr) = some "turn.completed"

/-- The scan loop of `parse_usage_tokens`: `acc` is `usage_tokens`; a
`turn.completed` record without `usage` aborts the whole function through the
`?` operator; the accumulator is only updated when the record total is
positive. -/
def parseUsageTokensGo (acc : Option ℤ) : List Json → Option ℤ
  | [] => acc
  | payload :: rest =>
    if isTurnCompleted payload = false then
      parseUsageTokensGo acc rest
    else
      match payload.getKey "usage" with
      | none => none
      | some usage =>
        if 0 < recordTotal usage then
          parseUsageTokensGo (some (recordTotal usage)) rest
        else
          parseUsageTokensGo acc rest

def parseUsageTokens (lines : List Json) : Option ℤ :=
  parseUsageTokensGo none lines

/-- The positive per-record totals of the `turn.completed` records, in log
order. -/
def positiveTotals (lines : List Json) : List ℤ :=
  (lines.filter isTurnCompleted).filterMap fun payload =>
    (payload.getKey "usage").bind fun usage =>
      if 0 < recordTotal usage then some (recordTotal usage) else none

/-- What the spec's words describe: among all `turn.completed` records the
last one wins, its total being `total_tokens` if present, else input +
output. -/
def parseUsageTokensClaimed (lines : List Json) : Option ℤ :=
  ((lines.filter isTurnCompleted).filterMap fun payload =>
    (payload.getKey "usage").map recordTotal).getLast?

def lastOr (l : List ℤ) (acc : Option ℤ) : Option ℤ :=
  match l.getLast? with
  | some v => some v
  | none => acc

theorem lastOr_cons (x : ℤ) (ts : List ℤ) (acc : Option ℤ) :
    lastOr (x :: ts) acc = lastOr ts (some x) := by
  unfold lastOr
  cases ts with
  | nil => rfl
  | cons y ts' =>
    rw [List.getLast?_cons_cons]
    cases h : (y :: ts').getLast? with
    | none => exact absurd h (by simp [List.getLast?_isSome])
    | some v => rfl

theorem parseUsageTokensGo_all_usage (lines : List Json) : ∀ acc : Option ℤ,
    (∀ p ∈ lines, isTurnCompleted p = true → (p.getKey "usage").isSome = true) →
    parseUsageTokensGo acc lines = lastOr (positiveTotals lines) acc := by
  induction lines with
  | nil => intro acc _; rfl
  | cons p rest ih =>
    intro acc hall
    have hrest : ∀ q ∈ rest, isTurnCompleted q = true → (q.getKey "usage").isSome = true :=
      fun q hq => hall q (List.mem_cons_of_mem p hq)
    cases htc : isTurnCompleted p with
    | false =>
      have hgo : parseUsageTokensGo acc (p :: rest) = parseUsageTokensGo acc rest := by
        conv_lhs => unfold parseUsageTokensGo
        rw [if_pos htc]
      have hpt : positiveTotals (p :: rest) = positiveTotals rest := by
        simp [positiveTotals, List.filter_cons, htc]
      rw [hgo, hpt]
      exact ih acc hrest
    | true =>
      have husage : (p.getKey "usage").isSome = true :=
        hall p (List.mem_cons_self p rest) htc
      cases hu : p.getKey "usage" with
      | none => rw [hu] at husage; simp at husage
      | some u =>
        by_cases hpos : 0 < recordTotal u
        · have hgo : parseUsageTokensGo acc (p :: rest)
              = parseUsageTokensGo (some (recordTotal u)) rest := by
            conv_lhs => unfold parseUsageTokensGo
            rw [if_neg (by rw [htc]; simp)]
            simp only [hu]
            rw [if_pos hpos]
          have hpt : positiveTotals (p :: rest) = recordTotal u :: positiveTotals rest := by
            simp [positiveTotals, List.filter_cons, htc, List.filterMap_cons, hu, hpos]
          rw [hgo, hpt, lastOr_cons]
          exact ih (some (recordTotal u)) hrest
        · have hgo : parseUsageTokensGo acc (p :: rest) = parseUsageTokensGo acc rest := by
            conv_lhs => unfold parseUsageTokensGo
            rw [if_neg (by rw [htc]; simp)]
            simp only [hu]
            rw [if_neg hpos]
          have hpt : positiveTotals (p :: rest) = positiveTotals rest := by
            simp [positiveTotals, List.filter_cons, htc, List.filterMap_cons, hu, hpos]
          rw [hgo, hpt]
          exact ih acc hrest

theorem parseUsageTokensGo_abort (lines : List Json) : ∀ acc : Option ℤ,
    (∃ p ∈ lines, isTurnCompleted p = true ∧ p.getKey "usage" = none) →
    parseUsageTokensGo acc lines = none := by
  induction lines with
  | nil =>
    intro acc h
    obtain ⟨p, hp, -⟩ := h
    exact absurd hp (List.not_mem_nil p)
  | cons p rest ih =>
    intro acc hex
    obtain ⟨q, hq, hqt, hqu⟩ := hex
    rcases List.mem_cons.mp hq with hq | hq
    · subst hq
      conv_lhs => unfold parseUsageTokensGo
      rw [if_neg (by rw [hqt]; simp)]
      simp only [hqu]
    · cases htc : isTurnCompleted p with
      | false =>
        conv_lhs => unfold parseUsageTokensGo
        rw [if_pos htc]
        exact ih acc ⟨q, hq, hqt, hqu⟩
      | true =>
        conv_lhs => unfold parseUsageTokensGo
        rw [if_neg (by rw [htc]; simp)]
        cases hu : p.getKey "usage" with
        | none => simp only [hu]
        | some u =>
          simp only [hu]
          by_cases hpos : 0 < recordTotal u
          · rw [if_pos hpos]
            exact ih _ ⟨q, hq, hqt, hqu⟩
          · rw [if_neg hpos]
            exact ih acc ⟨q, hq, hqt, hqu⟩

/-- C8 (amended): when every `turn.completed` record carries a `usage`
object, the parsed token count is the LAST record whose total (total_tokens
if present, else input + output, with prompt/completion aliases) is POSITIVE
- non-positive records are skipped, not "last one wins"; and a single
`turn.completed` record without `usage` aborts the whole scan to `None`
through the `?` operator, discarding totals already seen. -/
theorem parse_usage_last_positive (lines : List Json) :
    ((∀ p ∈ lines, isTurnCompleted p = true → (p.getKey "usage").isSome = true) →
      parseUsageTokens lines = (positiveTotals lines).getLast?)
    ∧ ((∃ p ∈ lines, isTurnCompleted p = true ∧ p.getKey "usage" = none) →
      parseUsageTokens lines = none) := by
  constructor
  · intro hall
    rw [parseUsageTokens, parseUsageTokensGo_all_usage lines none hall]
    unfold lastOr
    cases (positiveTotals lines).getLast? <;> rfl
  · intro hex
    exact parseUsageTokensGo_abort lines none hex

/-- A `turn.completed` log record with the given `usage.total_tokens`. -/
def tcUsage (total : ℤ) : Json :=
  Json.obj [("type", Json.str "turn.completed"),
            ("usage", Json.obj [("total_tokens", Json.num (total : ℚ))])]

/-- C8 counterexample: with records totalling 100 then 0, the code keeps 100
(the zero-total record does not update the accumulator), while the claimed
"last such record wins" reading yields 0. -/
theorem parse_usage_not_last_record :
    parseUsageTokens [tcUsage 100, tcUsage 0] = some 100
    ∧ parseUsageTokensClaimed [tcUsage 100, tcUsage 0] = some 0 :=
  ⟨rfl, rfl⟩

/-- Witness for C8 at a concrete two-record log. -/
theorem parse_usage_last_positive_witness :
    parseUsageTokens [tcUsage 5, tcUsage 7] = some 7 :=
  ((parse_usage_last_positive [tcUsage 5, tcUsage 7]).1 (by decide)).trans (by decide)

/-! ### Commit subjects (`commit_subject_from_title` in `src/task_agent.rs`)

Strings are modelled as `List Char`; byte offsets in the source all land on
character boundaries, so slice positions are modelled as character indices.
`char::is_whitespace` is modelled on the ASCII part of Unicode White_Space. -/

def isWs (c : Char) : Bool :=
  c.toNat = 32 || c.toNat = 9 || c.toNat = 10 || c.toNat = 13
    || c.toNat = 11 || c.toNat = 12

/-- `title.replace(['\n', '\r'], " ")`. -/
def replaceNl (s : List Char) : List Char :=
  s.map fun c => if c = '\n' ∨ c = '\r' then ' ' else c

theorem dropWhile_length_le (p : Char → Bool) :
    ∀ l : List Char, (l.dropWhile p).length ≤ l.length := by
  intro l
  induction l with
  | nil => simp
  | cons c cs ih =>
    rw [List.dropWhile_cons]
    split
    · exact Nat.le_succ_of_le ih
    · exact Nat.le_refl _

/-- `split_whitespace`: the maximal whitespace-free non-empty words. -/
def splitWs : List Char → List (List Char)
  | [] => []
  | c :: cs =>
    if isWs c then splitWs cs
    else (c :: cs.takeWhile (fun d => !isWs d)) :: splitWs (cs.dropWhile (fun d => !isWs d))
termination_by s => s.length
decreasing_by
  · simp
  · have h := dropWhile_length_le (fun d => !isWs d) cs
    simp only [List.length_cons]
    omega

/-- `.join(" ")`. -/
def joinSpace : List (List Char) → List Char
  | [] => []
  | [w] => w
  | w :: x :: ws => w ++ ' ' :: joinSpace (x :: ws)

/-- `split_whitespace().collect().join(" ")`. -/
def collapseWs (s : List Char) : List Char := joinSpace (splitWs s)

/-- `trim_end_matches('.')`. -/
def trimEndDots (s : List Char) : List Char :=
  (s.reverse.dropWhile (fun c => c = '.')).reverse

/-- `trim_end()`. -/
def trimEndWs (s : List Char) : List Char :=
  (s.reverse.dropWhile isWs).reverse

/-- `trim()`. -/
def trimWs (s : List Char) : List Char := trimEndWs (s.dropWhile isWs)

/-- `trim_end_matches('.').trim()` as used twice by the source. -/
def stripDotsTrim (s : List Char) : List Char := trimWs (trimEndDots s)

/-- `format!("Update \x7b\x7d", task_id)`. -/
def updateFallback (taskId : List Char) : List Char := "Update ".data ++ taskId

/-- The `if subject.is_empty()` fallback. -/
def orFallback (s taskId : List Char) : List Char :=
  if s = [] then updateFallback taskId else s

/-- Index of the last whitespace character, as tracked by `last_space`. -/
def lastWsIdx (s : List Char) : Option ℕ :=
  (s.reverse.findIdx? isWs).map fun j => s.length - 1 - j

/-- `truncate_commit_subject`: strings shorter than `maxChars` pass through;
otherwise cut at the last whitespace among the first `maxChars` characters
(or keep all `maxChars` characters when there is none) and trim the end. -/
def truncateCommitSubject (s : List Char) (maxChars : ℕ) : List Char :=
  if s.length < maxChars then s
  else
    match lastWsIdx (s.take maxChars) with
    | some i => trimEndWs (s.take i)
    | none => trimEndWs (s.take maxChars)

def isAsciiLower (c : Char) : Bool := 97 ≤ c.toNat && c.toNat ≤ 122

def toAsciiUpper (c : Char) : Char := Char.ofNat (c.toNat - 32)

/-- `capitalize_first_char`. -/
def capitalizeFirst : List Char → List Char
  | [] => []
  | c :: cs => if isAsciiLower c then toAsciiUpper c :: cs else c :: cs

/-- `commit_subject_from_title`: collapse whitespace, strip trailing periods
and trim, fall back to `Update <task_id>` when empty, truncate to 50
characters, strip and trim again, fall back again, capitalize. -/
def commitSubjectFromTitle (title taskId : List Char) : List Char :=
  capitalizeFirst (orFallback (stripDotsTrim
    (truncateCommitSubject (orFallback (stripDotsTrim (collapseWs (replaceNl title)))
      taskId) 50)) taskId)

theorem charOfNat_toNat (n : ℕ) (h : n < 55296) : (Char.ofNat n).toNat = n := by
  unfold Char.ofNat
  rw [dif_pos (Or.inl h)]
  rfl

theorem isAsciiLower_iff (c : Char) :
    isAsciiLower c = true ↔ 97 ≤ c.toNat ∧ c.toNat ≤ 122 := by
  simp [isAsciiLower]

theorem isWs_iff (c : Char) :
    isWs c = true ↔ c.toNat = 32 ∨ c.toNat = 9 ∨ c.toNat = 10 ∨ c.toNat = 13
      ∨ c.toNat = 11 ∨ c.toNat = 12 := by
  simp [isWs, or_assoc]

theorem isWs_toAsciiUpper (c : Char) (h : isAsciiLower c = true) :
    isWs (toAsciiUpper c) = false := by
  rw [isAsciiLower_iff] at h
  rw [Bool.eq_false_iff]
  intro hw
  rw [isWs_iff, toAsciiUpper, charOfNat_toNat _ (by omega)] at hw
  omega

theorem isAsciiLower_toAsciiUpper (c : Char) (h : isAsciiLower c = true) :
    isAsciiLower (toAsciiUpper c) = false := by
  rw [isAsciiLower_iff] at h
  rw [Bool.eq_false_iff]
  intro hw
  rw [isAsciiLower_iff, toAsciiUpper, charOfNat_toNat _ (by omega)] at hw
  omega

theorem takeWhile_append_all (p : Char → Bool) (w r : List Char)
    (h : ∀ c ∈ w, p c = true) :
    (w ++ r).takeWhile p = w ++ r.takeWhile p := by
  induction w with
  | nil => rfl
  | cons c cs ih =>
    have hc : p c = true := h c (List.mem_cons_self c cs)
    simp only [List.cons_append, List.takeWhile_cons, hc, if_true]
    rw [ih fun d hd => h d (List.mem_cons_of_mem c hd)]

theorem dropWhile_append_all (p : Char → Bool) (w r : List Char)
    (h : ∀ c ∈ w, p c = true) :
    (w ++ r).dropWhile p = r.dropWhile p := by
  induction w with
  | nil => rfl
  | cons c cs ih =>
    have hc : p c = true := h c (List.mem_cons_self c cs)
    simp only [List.cons_append, List.dropWhile_cons, hc, if_true]
    exact ih fun d hd => h d (List.mem_cons_of_mem c hd)

theorem dropWhile_head_false (p : Char → Bool) (l : List Char)
    (h : ∀ c, l.head? = some c → p c = false) :
    l.dropWhile p = l := by
  cases l with
  | nil => rfl
  | cons c cs =>
    rw [List.dropWhile_cons, if_neg]
    rw [h c rfl]
    simp

theorem dropWhile_append_left_ne (p : Char → Bool) (l₁ l₂ : List Char)
    (h : l₁.dropWhile p ≠ []) :
    (l₁ ++ l₂).dropWhile p = l₁.dropWhile p ++ l₂ := by
  induction l₁ with
  | nil => exact absurd rfl h
  | cons c cs ih =>
    rw [List.dropWhile_cons] at h
    simp only [List.cons_append, List.dropWhile_cons]
    by_cases hc : p c = true
    · rw [if_pos hc] at h
      rw [if_pos hc, if_pos hc]
      exact ih h
    · rw [if_neg hc, if_neg hc, List.cons_append]

theorem splitWs_nil : splitWs [] = [] := by
  unfold splitWs
  rfl

theorem splitWs_ws (c : Char) (cs : List Char) (h : isWs c = true) :
    splitWs (c :: cs) = splitWs cs := by
  conv_lhs => unfold splitWs
  rw [if_pos h]

theorem splitWs_word (c : Char) (cs : List Char) (h : isWs c = false) :
    splitWs (c :: cs)
      = (c :: cs.takeWhile (fun d => !isWs d))
        :: splitWs (cs.dropWhile (fun d => !isWs d)) := by
  conv_lhs => unfold splitWs
  rw [if_neg (by rw [h]; simp)]

/-- Words produced by `split_whitespace` are non-empty and whitespace-free. -/
def GoodWords (ws : List (List Char)) : Prop :=
  ∀ w ∈ ws, w ≠ [] ∧ ∀ c ∈ w, isWs c = false

theorem splitWs_words_aux : ∀ (n : ℕ) (s : List Char), s.length ≤ n →
    GoodWords (splitWs s) := by
  intro n
  induction n with
  | zero =>
    intro s hs
    have hnil : s = [] := List.length_eq_zero.mp (Nat.le_zero.mp hs)
    subst hnil
    rw [splitWs_nil]
    intro w hw
    exact absurd hw (List.not_mem_nil w)
  | succ n ih =>
    intro s hs
    cases s with
    | nil =>
      rw [splitWs_nil]
      intro w hw
      exact absurd hw (List.not_mem_nil w)
    | cons c cs =>
      have hlcs : cs.length ≤ n := by
        simp only [List.length_cons] at hs
        omega
      by_cases hc : isWs c = true
      · rw [splitWs_ws c cs hc]
        exact ih cs hlcs
      · have hc' : isWs c = false := by
          cases hv : isWs c with
          | true => exact absurd hv hc
          | false => rfl
        rw [splitWs_word c cs hc']
        intro w hw
        rcases List.mem_cons.mp hw with hw | hw
        · subst hw
          refine ⟨by simp, ?_⟩
          intro d hd
          rcases List.mem_cons.mp hd with hd | hd
          · subst hd; exact hc'
          · have hp := List.mem_takeWhile_imp hd
            simpa using hp
        · have hlen : (cs.dropWhile (fun d => !isWs d)).length ≤ n := by
            have hle := dropWhile_length_le (fun d => !isWs d) cs
            omega
          exact ih _ hlen w hw

theorem splitWs_words (s : List Char) : GoodWords (splitWs s) :=
  splitWs_words_aux s.length s (Nat.le_refl _)

theorem joinSpace_cons_ne (w : List Char) (ws : List (List Char)) (h : ws ≠ []) :
    joinSpace (w :: ws) = w ++ ' ' :: joinSpace ws := by
  cases ws with
  | nil => exact absurd rfl h
  | cons x rest => rfl

theorem splitWs_joinSpace : ∀ ws : List (List Char), GoodWords ws →
    splitWs (joinSpace ws) = ws := by
  intro ws
  induction ws with
  | nil => intro _; exact splitWs_nil
  | cons w tail ih =>
    intro hgood
    obtain ⟨hne, hnw⟩ := hgood w (List.mem_cons_self w tail)
    obtain ⟨c, w', hw⟩ : ∃ c w', w = c :: w' := by
      cases w with
      | nil => exact absurd rfl hne
      | cons c w' => exact ⟨c, w', rfl⟩
    subst hw
    have hc : isWs c = false := hnw c (List.mem_cons_self c w')
    have hw' : ∀ d ∈ w', isWs d = false := fun d hd => hnw d (List.mem_cons_of_mem c hd)
    cases tail with
    | nil =>
      show splitWs (c :: w') = [c :: w']
      rw [splitWs_word c w' hc]
      rw [List.takeWhile_eq_self_iff.mpr (by intro d hd; rw [hw' d hd]; rfl)]
      rw [List.dropWhile_eq_nil_iff.mpr (by intro d hd; rw [hw' d hd]; rfl)]
      rw [splitWs_nil]
    | cons x rest =>
      have hgt : GoodWords (x :: rest) := fun u hu => hgood u (List.mem_cons_of_mem _ hu)
      rw [joinSpace_cons_ne _ _ (by simp), List.cons_append]
      rw [splitWs_word c (w' ++ ' ' :: joinSpace (x :: rest)) hc]
      rw [takeWhile_append_all _ w' _ (by intro d hd; rw [hw' d hd]; rfl)]
      rw [dropWhile_append_all _ w' _ (by intro d hd; rw [hw' d hd]; rfl)]
      have hsp : (!isWs ' ') = false := by decide
      rw [List.takeWhile_cons, List.dropWhile_cons]
      simp only [hsp, Bool.false_eq_true, if_false]
      rw [List.append_nil]
      rw [splitWs_ws ' ' _ (by decide)]
      rw [ih hgt]

/-- A string is collapsed when it is the space-join of non-empty
whitespace-free words. -/
def Collapsed (s : List Char) : Prop :=
  ∃ ws, GoodWords ws ∧ s = joinSpace ws

theorem collapsed_collapseWs (s : List Char) : Collapsed (collapseWs s) :=
  ⟨splitWs s, splitWs_words s, rfl⟩

theorem collapseWs_fixed (s : List Char) (h : Collapsed s) : collapseWs s = s := by
  obtain ⟨ws, hg, rfl⟩ := h
  unfold collapseWs
  rw [splitWs_joinSpace ws hg]

theorem head?_mem (l : List Char) (c : Char) (h : l.head? = some c) : c ∈ l := by
  cases l with
  | nil => exact absurd h (by simp)
  | cons d ds =>
    rw [List.head?_cons, Option.some_inj] at h
    rw [← h]
    exact List.mem_cons_self d ds

theorem trimEndWs_all_false (l : List Char) (h : ∀ c ∈ l, isWs c = false) :
    trimEndWs l = l := by
  unfold trimEndWs
  rw [dropWhile_head_false, List.reverse_reverse]
  intro c hc
  exact h c (List.mem_reverse.mp (head?_mem _ _ hc))

theorem trimEndWs_eq_nil (l : List Char) (h : trimEndWs l = []) :
    ∀ c ∈ l, isWs c = true := by
  unfold trimEndWs at h
  have h2 : l.reverse.dropWhile isWs = [] := by
    have := congrArg List.reverse h
    rwa [List.reverse_reverse] at this
  intro c hc
  exact List.dropWhile_eq_nil_iff.mp h2 c (List.mem_reverse.mpr hc)

theorem trimEnd_take (p : Char → Bool) (s : List Char) :
    ∃ m, m ≤ s.length ∧ (s.reverse.dropWhile p).reverse = s.take m := by
  suffices haux : ∀ r : List Char, ∃ m, m ≤ r.length ∧ (r.dropWhile p).reverse
      = r.reverse.take m by
    obtain ⟨m, hm, he⟩ := haux s.reverse
    rw [List.reverse_reverse] at he
    rw [List.length_reverse] at hm
    exact ⟨m, hm, he⟩
  intro r
  induction r with
  | nil => exact ⟨0, Nat.le_refl _, rfl⟩
  | cons c r' ih =>
    by_cases hc : p c = true
    · obtain ⟨m, hm, he⟩ := ih
      refine ⟨m, by simp; omega, ?_⟩
      rw [List.dropWhile_cons, if_pos hc, he, List.reverse_cons]
      rw [List.take_append_of_le_length (by rw [List.length_reverse]; exact hm)]
    · refine ⟨(c :: r').length, Nat.le_refl _, ?_⟩
      rw [List.dropWhile_cons, if_neg hc]
      rw [← List.length_reverse, List.take_length]

theorem collapsed_nil : Collapsed [] :=
  ⟨[], fun w hw => absurd hw (List.not_mem_nil w), rfl⟩

theorem collapsed_of_no_ws (t : List Char) (h : ∀ c ∈ t, isWs c = false) :
    Collapsed t := by
  cases ht : t with
  | nil => exact collapsed_nil
  | cons d ds =>
    refine ⟨[d :: ds], ?_, rfl⟩
    intro u hu
    rcases List.mem_cons.mp hu with hu | hu
    · rw [hu]
      refine ⟨by simp, ?_⟩
      rw [← ht]
      exact h
    · exact absurd hu (List.not_mem_nil u)

theorem joinSpace_ne_nil (x : List Char) (rest : List (List Char))
    (hx : x ≠ []) : joinSpace (x :: rest) ≠ [] := by
  cases rest with
  | nil => exact hx
  | cons y rest' =>
    rw [joinSpace_cons_ne _ _ (by simp)]
    cases x with
    | nil => exact absurd rfl hx
    | cons c x' => simp

theorem collapsed_head_not_ws (s : List Char) (h : Collapsed s) (hne : s ≠ []) :
    ∃ c, s.head? = some c ∧ isWs c = false := by
  obtain ⟨ws, hgood, rfl⟩ := h
  cases ws with
  | nil => exact absurd rfl hne
  | cons w tail =>
    obtain ⟨hwne, hwnw⟩ := hgood w (List.mem_cons_self w tail)
    obtain ⟨c, w', hw⟩ : ∃ c w', w = c :: w' := by
      cases w with
      | nil => exact absurd rfl hwne
      | cons c w' => exact ⟨c, w', rfl⟩
    subst hw
    have hc : isWs c = false := hwnw c (List.mem_cons_self c w')
    cases tail with
    | nil => exact ⟨c, rfl, hc⟩
    | cons x rest =>
      rw [joinSpace_cons_ne _ _ (by simp)]
      exact ⟨c, rfl, hc⟩

theorem trimEndWs_append_space (w t' : List Char)
    (hw : ∀ c ∈ w, isWs c = false) (htne : trimEndWs t' ≠ []) :
    trimEndWs (w ++ ' ' :: t') = w ++ ' ' :: trimEndWs t' := by
  have hdne : t'.reverse.dropWhile isWs ≠ [] := by
    intro h0
    apply htne
    unfold trimEndWs
    rw [h0]
    rfl
  unfold trimEndWs
  rw [List.reverse_append, List.reverse_cons, List.append_assoc]
  rw [dropWhile_append_left_ne isWs _ _ hdne]
  rw [List.reverse_append, List.reverse_append, List.reverse_reverse]
  simp only [List.reverse_cons, List.reverse_nil, List.nil_append]
  rw [List.append_assoc, List.singleton_append]

theorem trimEndWs_append_space_nil (w : List Char)
    (hw : ∀ c ∈ w, isWs c = false) :
    trimEndWs (w ++ [' ']) = w := by
  unfold trimEndWs
  rw [List.reverse_append]
  show ((' ' :: w.reverse).dropWhile isWs).reverse = w
  rw [List.dropWhile_cons, if_pos (by decide)]
  rw [dropWhile_head_false isWs _ (fun c hc =>
    hw c (List.mem_reverse.mp (head?_mem _ _ hc))), List.reverse_reverse]

theorem collapsed_trimEndWs_take : ∀ ws : List (List Char), GoodWords ws →
    ∀ n : ℕ, Collapsed (trimEndWs ((joinSpace ws).take n)) := by
  intro ws
  induction ws with
  | nil =>
    intro _ n
    show Collapsed (trimEndWs (([] : List Char).take n))
    rw [List.take_nil, trimEndWs_all_false [] (by intro c hc; exact absurd hc (List.not_mem_nil c))]
    exact collapsed_nil
  | cons w tail ih =>
    intro hgood n
    obtain ⟨hwne, hwnw⟩ := hgood w (List.mem_cons_self w tail)
    have hgt : GoodWords tail := fun u hu => hgood u (List.mem_cons_of_mem w hu)
    cases tail with
    | nil =>
      show Collapsed (trimEndWs (w.take n))
      have hnw : ∀ c ∈ w.take n, isWs c = false :=
        fun c hc => hwnw c (List.take_subset n w hc)
      rw [trimEndWs_all_false _ hnw]
      exact collapsed_of_no_ws _ hnw
    | cons x rest =>
      obtain ⟨hxne, -⟩ := hgt x (List.mem_cons_self x rest)
      have hJne : joinSpace (x :: rest) ≠ [] := joinSpace_ne_nil x rest hxne
      obtain ⟨cJ, hcJ, hcJw⟩ :=
        collapsed_head_not_ws (joinSpace (x :: rest)) ⟨x :: rest, hgt, rfl⟩ hJne
      rw [joinSpace_cons_ne _ _ (by simp), List.take_append_eq_append_take]
      by_cases hn : n ≤ w.length
      · have h0 : n - w.length = 0 := by omega
        rw [h0, List.take_zero, List.append_nil]
        have hnw : ∀ c ∈ w.take n, isWs c = false :=
          fun c hc => hwnw c (List.take_subset n w hc)
        rw [trimEndWs_all_false _ hnw]
        exact collapsed_of_no_ws _ hnw
      · have hlt : w.length < n := by omega
        rw [List.take_of_length_le (Nat.le_of_lt hlt)]
        have hsucc : n - w.length = (n - w.length - 1) + 1 := by omega
        rw [hsucc, List.take_succ_cons]
        by_cases htk : (joinSpace (x :: rest)).take (n - w.length - 1) = []
        · rw [htk]
          rw [trimEndWs_append_space_nil w hwnw]
          exact collapsed_of_no_ws w hwnw
        · have hIH := ih hgt (n - w.length - 1)
          have hkpos : ∃ k', n - w.length - 1 = k' + 1 := by
            rcases Nat.eq_zero_or_pos (n - w.length - 1) with h0 | hp
            · rw [h0] at htk
              exact absurd (List.take_zero _) htk
            · exact ⟨n - w.length - 1 - 1, by omega⟩
          have htne : trimEndWs ((joinSpace (x :: rest)).take (n - w.length - 1)) ≠ [] := by
            intro he
            have hall := trimEndWs_eq_nil _ he
            obtain ⟨k', hk'⟩ := hkpos
            obtain ⟨d, J', hJd⟩ : ∃ d J', joinSpace (x :: rest) = d :: J' := by
              cases hJ : joinSpace (x :: rest) with
              | nil => exact absurd hJ hJne
              | cons d J' => exact ⟨d, J', rfl⟩
            have hdc : d = cJ := by
              rw [hJd, List.head?_cons, Option.some_inj] at hcJ
              exact hcJ
            have hmem : cJ ∈ (joinSpace (x :: rest)).take (n - w.length - 1) := by
              rw [hJd, hk', List.take_succ_cons, ← hdc]
              exact List.mem_cons_self d _
            rw [hall cJ hmem] at hcJw
            exact absurd hcJw (by simp)
          rw [trimEndWs_append_space w _ hwnw htne]
          obtain ⟨ws', hgood', heq'⟩ := hIH
          have hws'ne : ws' ≠ [] := by
            intro h0
            rw [h0] at heq'
            exact htne heq'
          rw [heq', ← joinSpace_cons_ne w ws' hws'ne]
          refine ⟨w :: ws', ?_, rfl⟩
          intro u hu
          rcases List.mem_cons.mp hu with hu | hu
          · rw [hu]; exact ⟨hwne, hwnw⟩
          · exact hgood' u hu

theorem collapsed_last_not_ws : ∀ ws : List (List Char), GoodWords ws →
    joinSpace ws ≠ [] → ∃ c, (joinSpace ws).getLast? = some c ∧ isWs c = false := by
  intro ws
  induction ws with
  | nil => intro _ hne; exact absurd rfl hne
  | cons w tail ih =>
    intro hgood _
    obtain ⟨hwne, hwnw⟩ := hgood w (List.mem_cons_self w tail)
    have hgt : GoodWords tail := fun u hu => hgood u (List.mem_cons_of_mem w hu)
    cases tail with
    | nil =>
      show ∃ c, w.getLast? = some c ∧ isWs c = false
      refine ⟨w.getLast hwne, List.getLast?_eq_getLast_of_ne_nil hwne, ?_⟩
      exact hwnw _ (List.getLast_mem hwne)
    | cons x rest =>
      obtain ⟨hxne, -⟩ := hgt x (List.mem_cons_self x rest)
      have hJne : joinSpace (x :: rest) ≠ [] := joinSpace_ne_nil x rest hxne
      obtain ⟨c, hc, hcw⟩ := ih hgt hJne
      rw [joinSpace_cons_ne _ _ (by simp)]
      refine ⟨c, ?_, hcw⟩
      rw [List.getLast?_append_of_ne_nil _ (by simp)]
      show (' ' :: joinSpace (x :: rest)).getLast? = some c
      rw [show ' ' :: joinSpace (x :: rest) = [' '] ++ joinSpace (x :: rest) from rfl]
      rw [List.getLast?_append_of_ne_nil _ hJne]
      exact hc

theorem collapsed_mem_ws : ∀ ws : List (List Char), GoodWords ws →
    ∀ c ∈ joinSpace ws, isWs c = true → c = ' ' := by
  intro ws
  induction ws with
  | nil => intro _ c hc; exact absurd hc (List.not_mem_nil c)
  | cons w tail ih =>
    intro hgood c hc hcw
    obtain ⟨hwne, hwnw⟩ := hgood w (List.mem_cons_self w tail)
    have hgt : GoodWords tail := fun u hu => hgood u (List.mem_cons_of_mem w hu)
    cases tail with
    | nil =>
      rw [hwnw c hc] at hcw
      exact absurd hcw (by simp)
    | cons x rest =>
      rw [joinSpace_cons_ne _ _ (by simp)] at hc
      rcases List.mem_append.mp hc with hc | hc
      · rw [hwnw c hc] at hcw
        exact absurd hcw (by simp)
      · rcases List.mem_cons.mp hc with hc | hc
        · exact hc
        · exact ih hgt c hc hcw

theorem trimEndWs_of_collapsed (s : List Char) (h : Collapsed s) : trimEndWs s = s := by
  rcases Classical.em (s = []) with hne | hne
  · subst hne; rfl
  · obtain ⟨ws, hgood, rfl⟩ := h
    obtain ⟨c, hc, hcw⟩ := collapsed_last_not_ws ws hgood hne
    unfold trimEndWs
    rw [dropWhile_head_false, List.reverse_reverse]
    intro d hd
    rw [List.head?_reverse] at hd
    rw [hc, Option.some_inj] at hd
    rw [← hd]
    exact hcw

theorem trimWs_of_collapsed (s : List Char) (h : Collapsed s) : trimWs s = s := by
  rcases Classical.em (s = []) with hne | hne
  · subst hne; rfl
  · obtain ⟨c, hc, hcw⟩ := collapsed_head_not_ws s h hne
    unfold trimWs
    rw [dropWhile_head_false isWs s (by intro d hd; rw [hc, Option.some_inj] at hd; rw [← hd]; exact hcw)]
    exact trimEndWs_of_collapsed s h

theorem trimEndDots_of_last (s : List Char) (h : s.getLast? ≠ some '.') :
    trimEndDots s = s := by
  unfold trimEndDots
  rw [dropWhile_head_false, List.reverse_reverse]
  intro d hd
  rw [List.head?_reverse] at hd
  simp only [decide_eq_false_iff_not]
  intro he
  rw [he] at hd
  exact h hd

theorem replaceNl_of_collapsed (s : List Char) (h : Collapsed s) : replaceNl s = s := by
  obtain ⟨ws, hgood, rfl⟩ := h
  unfold replaceNl
  rw [show (joinSpace ws).map (fun c => if c = '\n' ∨ c = '\r' then ' ' else c)
      = (joinSpace ws).map id from ?_, List.map_id]
  apply List.map_congr_left
  intro c hc
  show (if c = '\n' ∨ c = '\r' then ' ' else c) = c
  rw [if_neg]
  rintro (he | he) <;> rw [he] at hc <;>
    have := collapsed_mem_ws ws hgood _ hc (by decide) <;> exact absurd this (by decide)

theorem capitalizeFirst_idem (s : List Char) :
    capitalizeFirst (capitalizeFirst s) = capitalizeFirst s := by
  cases s with
  | nil => rfl
  | cons c cs =>
    by_cases hc : isAsciiLower c = true
    · have h1 : capitalizeFirst (c :: cs) = toAsciiUpper c :: cs := by
        simp only [capitalizeFirst]
        rw [if_pos hc]
      have h2 : capitalizeFirst (toAsciiUpper c :: cs) = toAsciiUpper c :: cs := by
        simp only [capitalizeFirst]
        rw [if_neg (by rw [isAsciiLower_toAsciiUpper c hc]; simp)]
      rw [h1, h2]
    · have h1 : capitalizeFirst (c :: cs) = c :: cs := by
        simp only [capitalizeFirst]
        rw [if_neg hc]
      rw [h1, h1]

theorem capitalizeFirst_length (s : List Char) :
    (capitalizeFirst s).length = s.length := by
  cases s with
  | nil => rfl
  | cons c cs =>
    simp only [capitalizeFirst]
    split <;> rfl

theorem capitalizeFirst_ne_nil (s : List Char) (h : s ≠ []) :
    capitalizeFirst s ≠ [] := by
  cases s with
  | nil => exact absurd rfl h
  | cons c cs =>
    simp only [capitalizeFirst]
    split <;> simp

theorem capitalizeFirst_no_ws (s : List Char) (h : ∀ c ∈ s, isWs c = false) :
    ∀ c ∈ capitalizeFirst s, isWs c = false := by
  cases s with
  | nil => exact h
  | cons c cs =>
    simp only [capitalizeFirst]
    by_cases hc : isAsciiLower c = true
    · rw [if_pos hc]
      intro d hd
      rcases List.mem_cons.mp hd with hd | hd
      · rw [hd]
        exact isWs_toAsciiUpper c hc
      · exact h d (List.mem_cons_of_mem c hd)
    · rw [if_neg hc]
      exact h

theorem capitalizeFirst_collapsed (s : List Char) (h : Collapsed s) :
    Collapsed (capitalizeFirst s) := by
  obtain ⟨ws, hgood, rfl⟩ := h
  cases ws with
  | nil => exact collapsed_nil
  | cons w tail =>
    obtain ⟨hwne, hwnw⟩ := hgood w (List.mem_cons_self w tail)
    obtain ⟨c, w', hw⟩ : ∃ c w', w = c :: w' := by
      cases w with
      | nil => exact absurd rfl hwne
      | cons c w' => exact ⟨c, w', rfl⟩
    subst hw
    have hgt : GoodWords tail := fun u hu => hgood u (List.mem_cons_of_mem _ hu)
    by_cases hc : isAsciiLower c = true
    · have hgood' : GoodWords ((toAsciiUpper c :: w') :: tail) := by
        intro u hu
        rcases List.mem_cons.mp hu with hu | hu
        · rw [hu]
          refine ⟨by simp, ?_⟩
          intro d hd
          rcases List.mem_cons.mp hd with hd | hd
          · rw [hd]; exact isWs_toAsciiUpper c hc
          · exact hwnw d (List.mem_cons_of_mem c hd)
        · exact hgt u hu
      refine ⟨(toAsciiUpper c :: w') :: tail, hgood', ?_⟩
      cases tail with
      | nil =>
        show capitalizeFirst (c :: w') = toAsciiUpper c :: w'
        simp only [capitalizeFirst]
        rw [if_pos hc]
      | cons x rest =>
        rw [joinSpace_cons_ne (c :: w') (x :: rest) (by simp),
          joinSpace_cons_ne (toAsciiUpper c :: w') (x :: rest) (by simp)]
        show capitalizeFirst (c :: (w' ++ ' ' :: joinSpace (x :: rest))) = _
        simp only [capitalizeFirst]
        rw [if_pos hc]
        rfl
    · refine ⟨(c :: w') :: tail, hgood, ?_⟩
      cases tail with
      | nil =>
        show capitalizeFirst (c :: w') = c :: w'
        simp only [capitalizeFirst]
        rw [if_neg hc]
      | cons x rest =>
        rw [joinSpace_cons_ne (c :: w') (x :: rest) (by simp)]
        show capitalizeFirst (c :: (w' ++ ' ' :: joinSpace (x :: rest))) = _
        simp only [capitalizeFirst]
        rw [if_neg hc]
        exact (List.cons_append c w' _).symm

theorem lastWsIdx_none_iff (l : List Char) :
    lastWsIdx l = none ↔ ∀ c ∈ l, isWs c = false := by
  unfold lastWsIdx
  rw [Option.map_eq_none', List.findIdx?_eq_none_iff]
  constructor
  · intro h c hc
    have := h c (List.mem_reverse.mpr hc)
    simpa using this
  · intro h c hc
    simp [h c (List.mem_reverse.mp hc)]

theorem lastWsIdx_some_lt (l : List Char) (i : ℕ) (h : lastWsIdx l = some i) :
    i < l.length := by
  unfold lastWsIdx at h
  rw [Option.map_eq_some'] at h
  obtain ⟨j, hj, hi⟩ := h
  have hlt : j < l.reverse.length := by
    rw [List.findIdx?_eq_some_iff_findIdx_eq] at hj
    exact hj.1
  rw [List.length_reverse] at hlt
  omega

theorem take_head? (s : List Char) (m : ℕ) (h : s.take m ≠ []) :
    (s.take m).head? = s.head? := by
  cases s with
  | nil => rw [List.take_nil] at h; exact absurd rfl h
  | cons c cs =>
    cases m with
    | zero => rw [List.take_zero] at h; exact absurd rfl h
    | succ m => rw [List.take_succ_cons]; rfl

theorem mem_trimEndDots (s : List Char) (c : Char) (h : c ∈ trimEndDots s) :
    c ∈ s := by
  unfold trimEndDots at h
  have h1 : c ∈ s.reverse.dropWhile (fun c => c = '.') := List.mem_reverse.mp h
  exact List.mem_reverse.mp (List.dropWhile_subset _ h1)

theorem mem_trimEndWs (s : List Char) (c : Char) (h : c ∈ trimEndWs s) : c ∈ s := by
  unfold trimEndWs at h
  have h1 : c ∈ s.reverse.dropWhile isWs := List.mem_reverse.mp h
  exact List.mem_reverse.mp (List.dropWhile_subset _ h1)

theorem mem_stripDotsTrim (s : List Char) (c : Char) (h : c ∈ stripDotsTrim s) :
    c ∈ s := by
  unfold stripDotsTrim trimWs at h
  have h1 := mem_trimEndWs _ c h
  have h2 := List.dropWhile_subset isWs h1
  exact mem_trimEndDots s c h2

theorem trimEndWs_length_le (s : List Char) : (trimEndWs s).length ≤ s.length := by
  unfold trimEndWs
  rw [List.length_reverse]
  have := dropWhile_length_le isWs s.reverse
  rw [List.length_reverse] at this
  exact this

theorem stripDotsTrim_length_le (s : List Char) :
    (stripDotsTrim s).length ≤ s.length := by
  unfold stripDotsTrim trimWs trimEndDots
  have h1 := trimEndWs_length_le (((s.reverse.dropWhile fun c => c = '.').reverse).dropWhile isWs)
  have h2 := dropWhile_length_le isWs ((s.reverse.dropWhile fun c => c = '.').reverse)
  have h3 := dropWhile_length_le (fun c => c = '.') s.reverse
  rw [List.length_reverse] at h2
  have h4 : (s.reverse.dropWhile fun c => c = '.').length ≤ s.length := by
    rw [← List.length_reverse s]
    exact h3
  omega

theorem stripDotsTrim_collapsed (s : List Char) (h : Collapsed s) :
    Collapsed (stripDotsTrim s) := by
  obtain ⟨m, hm, he⟩ := trimEnd_take (fun c => c = '.') s
  unfold stripDotsTrim trimWs trimEndDots
  rw [he]
  by_cases ht : s.take m = []
  · rw [ht]
    exact collapsed_nil
  · have hne : s ≠ [] := by
      intro h0
      rw [h0, List.take_nil] at ht
      exact ht rfl
    obtain ⟨c, hc, hcw⟩ := collapsed_head_not_ws s h hne
    rw [dropWhile_head_false isWs _ ?hh]
    case hh =>
      intro d hd
      rw [take_head? s m ht, hc, Option.some_inj] at hd
      rw [← hd]
      exact hcw
    obtain ⟨ws, hgood, hs⟩ := h
    rw [hs]
    exact collapsed_trimEndWs_take ws hgood m

theorem truncate_props (s : List Char) (h : Collapsed s) :
    Collapsed (truncateCommitSubject s 50)
    ∧ (truncateCommitSubject s 50).length ≤ 50
    ∧ ((truncateCommitSubject s 50).length < 50
        ∨ ∀ c ∈ truncateCommitSubject s 50, isWs c = false)
    ∧ (s.length < 50 → truncateCommitSubject s 50 = s) := by
  unfold truncateCommitSubject
  by_cases hl : s.length < 50
  · rw [if_pos hl]
    exact ⟨h, by omega, Or.inl hl, fun _ => rfl⟩
  · rw [if_neg hl]
    cases hiw : lastWsIdx (s.take 50) with
    | some i =>
      show Collapsed (trimEndWs (s.take i))
        ∧ (trimEndWs (s.take i)).length ≤ 50
        ∧ ((trimEndWs (s.take i)).length < 50
            ∨ ∀ c ∈ trimEndWs (s.take i), isWs c = false)
        ∧ (s.length < 50 → trimEndWs (s.take i) = s)
      have hi : i < 50 := by
        have h1 := lastWsIdx_some_lt _ _ hiw
        have h2 : (s.take 50).length ≤ 50 := List.length_take_le _ _
        omega
      have hlen1 : (trimEndWs (s.take i)).length < 50 := by
        have h3 := trimEndWs_length_le (s.take i)
        have h4 : (s.take i).length ≤ i := List.length_take_le _ _
        omega
      obtain ⟨ws, hgood, hs⟩ := h
      refine ⟨?_, by omega, Or.inl hlen1, fun h0 => absurd h0 hl⟩
      rw [hs]
      exact collapsed_trimEndWs_take ws hgood i
    | none =>
      show Collapsed (trimEndWs (s.take 50))
        ∧ (trimEndWs (s.take 50)).length ≤ 50
        ∧ ((trimEndWs (s.take 50)).length < 50
            ∨ ∀ c ∈ trimEndWs (s.take 50), isWs c = false)
        ∧ (s.length < 50 → trimEndWs (s.take 50) = s)
      have hnw : ∀ c ∈ s.take 50, isWs c = false := (lastWsIdx_none_iff _).mp hiw
      rw [trimEndWs_all_false _ hnw]
      exact ⟨collapsed_of_no_ws _ hnw, List.length_take_le _ _, Or.inr hnw,
        fun h0 => absurd h0 hl⟩

theorem updateFallback_eq (taskId : List Char) :
    updateFallback taskId = "Update".data ++ ' ' :: taskId := rfl

theorem updateFallback_collapsed (taskId : List Char) (hid : taskId ≠ [])
    (hidws : ∀ c ∈ taskId, isWs c = false) : Collapsed (updateFallback taskId) := by
  refine ⟨["Update".data, taskId], ?_, ?_⟩
  · intro u hu
    rcases List.mem_cons.mp hu with hu | hu
    · rw [hu]
      exact ⟨by decide, by decide⟩
    · rcases List.mem_cons.mp hu with hu | hu
      · rw [hu]
        exact ⟨hid, hidws⟩
      · exact absurd hu (List.not_mem_nil u)
  · rw [joinSpace_cons_ne _ _ (by simp), updateFallback_eq]
    rfl

theorem updateFallback_length (taskId : List Char) :
    (updateFallback taskId).length = 7 + taskId.length := by
  unfold updateFallback
  rw [List.length_append]
  rfl

theorem updateFallback_ne_nil (taskId : List Char) : updateFallback taskId ≠ [] := by
  intro h0
  have := congrArg List.length h0
  rw [updateFallback_length] at this
  simp at this

/-- The shape shared by every output of `commit_subject_from_title`:
collapsed whitespace, non-empty, stable under capitalization, at most 50
characters, and below 50 characters unless entirely whitespace-free. -/
def SubjectCanon (s : List Char) : Prop :=
  Collapsed s ∧ s ≠ [] ∧ capitalizeFirst s = s ∧ s.length ≤ 50
    ∧ (s.length < 50 ∨ ∀ c ∈ s, isWs c = false)

theorem commitSubject_canon (title taskId : List Char) (hid : taskId ≠ [])
    (hidws : ∀ c ∈ taskId, isWs c = false) (hidlen : taskId.length ≤ 42) :
    SubjectCanon (commitSubjectFromTitle title taskId) := by
  unfold commitSubjectFromTitle
  have hc1 : Collapsed (collapseWs (replaceNl title)) := collapsed_collapseWs _
  set s1 := collapseWs (replaceNl title) with hs1
  have hc2 : Collapsed (stripDotsTrim s1) := stripDotsTrim_collapsed s1 hc1
  set s2 := stripDotsTrim s1 with hs2
  have hc3 : Collapsed (orFallback s2 taskId) ∧ orFallback s2 taskId ≠ [] := by
    unfold orFallback
    by_cases h0 : s2 = []
    · rw [if_pos h0]
      exact ⟨updateFallback_collapsed taskId hid hidws, updateFallback_ne_nil taskId⟩
    · rw [if_neg h0]
      exact ⟨hc2, h0⟩
  set s3 := orFallback s2 taskId with hs3
  obtain ⟨hc3c, hc3ne⟩ := hc3
  obtain ⟨hc4, hl4, hd4, -⟩ := truncate_props s3 hc3c
  set s4 := truncateCommitSubject s3 50 with hs4
  have hc5 : Collapsed (stripDotsTrim s4) := stripDotsTrim_collapsed s4 hc4
  have hl5 : (stripDotsTrim s4).length ≤ 50 :=
    le_trans (stripDotsTrim_length_le s4) hl4
  have hd5 : (stripDotsTrim s4).length < 50
      ∨ ∀ c ∈ stripDotsTrim s4, isWs c = false := by
    rcases hd4 with hd4 | hd4
    · left
      have := stripDotsTrim_length_le s4
      omega
    · right
      intro c hc
      exact hd4 c (mem_stripDotsTrim s4 c hc)
  set s5 := stripDotsTrim s4 with hs5
  have h6 : Collapsed (orFallback s5 taskId) ∧ orFallback s5 taskId ≠ []
      ∧ (orFallback s5 taskId).length ≤ 50
      ∧ ((orFallback s5 taskId).length < 50
          ∨ ∀ c ∈ orFallback s5 taskId, isWs c = false) := by
    unfold orFallback
    by_cases h0 : s5 = []
    · rw [if_pos h0]
      refine ⟨updateFallback_collapsed taskId hid hidws, updateFallback_ne_nil taskId,
        ?_, ?_⟩
      · rw [updateFallback_length]; omega
      · left
        rw [updateFallback_length]; omega
    · rw [if_neg h0]
      exact ⟨hc5, h0, hl5, hd5⟩
  set s6 := orFallback s5 taskId with hs6
  obtain ⟨h6c, h6ne, h6len, h6d⟩ := h6
  refine ⟨capitalizeFirst_collapsed s6 h6c, capitalizeFirst_ne_nil s6 h6ne,
    capitalizeFirst_idem s6, ?_, ?_⟩
  · rw [capitalizeFirst_length]
    exact h6len
  · rcases h6d with h6d | h6d
    · left
      rw [capitalizeFirst_length]
      exact h6d
    · right
      exact capitalizeFirst_no_ws s6 h6d

theorem commitSubject_fix (s taskId : List Char) (hc : SubjectCanon s)
    (hdot : s.getLast? ≠ some '.') :
    commitSubjectFromTitle s taskId = s := by
  obtain ⟨hcol, hne, hcap, hlen, hdisj⟩ := hc
  have hstrip : stripDotsTrim s = s := by
    unfold stripDotsTrim
    rw [trimEndDots_of_last s hdot, trimWs_of_collapsed s hcol]
  have hfb : orFallback s taskId = s := by
    unfold orFallback
    rw [if_neg hne]
  have htr : truncateCommitSubject s 50 = s := by
    unfold truncateCommitSubject
    by_cases hl : s.length < 50
    · rw [if_pos hl]
    · rw [if_neg hl]
      have hnw : ∀ c ∈ s, isWs c = false := by
        rcases hdisj with hd | hd
        · exact absurd hd hl
        · exact hd
      rw [List.take_of_length_le hlen]
      rw [(lastWsIdx_none_iff s).mpr hnw]
      rw [trimEndWs_all_false s hnw]
  unfold commitSubjectFromTitle
  rw [replaceNl_of_collapsed s hcol, collapseWs_fixed s hcol, hstrip, hfb, htr,
    hstrip, hfb]
  exact hcap

/-- C9 (amended): the commit-subject derivation is idempotent on every title
whose first-pass output does not end in a period, provided the task id is
non-empty, whitespace-free, and at most 42 characters (so the fallback fits
the 50-character budget); without the trailing-period proviso it fails, since
the strip-dots pass runs before the final trim and a period re-exposed by
that trim survives into the output. -/
theorem commit_subject_idempotent (title taskId : List Char)
    (hid : taskId ≠ [])
    (hidws : ∀ c ∈ taskId, isWs c = false)
    (hidlen : taskId.length ≤ 42)
    (hdot : (commitSubjectFromTitle title taskId).getLast? ≠ some '.') :
    commitSubjectFromTitle (commitSubjectFromTitle title taskId) taskId
      = commitSubjectFromTitle title taskId :=
  commitSubject_fix (commitSubjectFromTitle title taskId) taskId
    (commitSubject_canon title taskId hid hidws hidlen) hdot

/-- C9 counterexample: for the title `"a. .. ."` the first pass yields
`"A."` (the final trim of the first strip-dots pass re-exposes a period),
and applying the derivation again yields `"A"`, so
`subject(subject(title)) ≠ subject(title)`. -/
theorem commit_subject_not_idempotent :
    commitSubjectFromTitle ("a. .. .".data) ("t1".data) = "A.".data
    ∧ commitSubjectFromTitle ("A.".data) ("t1".data) = "A".data
    ∧ ("A.".data : List Char) ≠ "A".data := by
  refine ⟨?_, ?_, by decide⟩
  · simp +decide [commitSubjectFromTitle, splitWs, collapseWs, stripDotsTrim, trimWs,
      trimEndWs, trimEndDots, orFallback, truncateCommitSubject, lastWsIdx,
      capitalizeFirst, replaceNl, joinSpace, updateFallback]
  · simp +decide [commitSubjectFromTitle, splitWs, collapseWs, stripDotsTrim, trimWs,
      trimEndWs, trimEndDots, orFallback, truncateCommitSubject, lastWsIdx,
      capitalizeFirst, replaceNl, joinSpace, updateFallback]

/-- Witness for C9 at a concrete title whose output has no trailing
period. -/
theorem commit_subject_idempotent_witness :
    commitSubjectFromTitle (commitSubjectFromTitle ("hello  world".data) ("t1".data))
        ("t1".data)
      = commitSubjectFromTitle ("hello  world".data) ("t1".data) :=
  commit_subject_idempotent ("hello  world".data) ("t1".data) (by decide) (by decide)
    (by decide)
    (by simp +decide [commitSubjectFromTitle, splitWs, collapseWs, stripDotsTrim, trimWs,
      trimEndWs, trimEndDots, orFallback, truncateCommitSubject, lastWsIdx,
      capitalizeFirst, replaceNl, joinSpace, updateFallback])
